import Mathlib

/-!
Verification development for the process-scheduler simulator (src/main.cpp).

The C++ program is a discrete-time scheduling simulator.  This file gives a
shallow embedding of its data model and operations:

  - struct proc_data and its three comparison functions;
  - update_cpus_state (slot fill followed by std::stable_sort with the
    slot comparator);
  - the seven scheduling policies fcfs, sjf, srtf, rr, prio_fcfs,
    prio_srtf, prio_fcfs_no_preemption (each reorders the process list and
    then calls update_cpus_state);
  - the main simulation loop: per tick, admission of one input group,
    policy dispatch on the method number, the execution-accounting loop
    that decrements remaining times (unsigned 32-bit wraparound) and
    erases completed processes, and emission of one output record.

std::stable_sort is modelled by a stable insertion sort (stableSort below);
a stable sort over a given comparator is uniquely determined by being a
permutation, sorted, and stable, and this file proves those three facts
about stableSort together with a uniqueness lemma.

Machine integers: int fields are modelled by Int, unsigned int fields by
Nat together with explicit reduction modulo 2^32 at the operations where
the C++ code can wrap (the remaining-time decrement and the executed-time
subtraction).  Partial code (the unguarded linear search of the accounting
loop) is modelled with Option.
-/

namespace ProcSched

/-- Modulus of the C++ type unsigned int on the target platform. -/
def U32 : Nat := 2 ^ 32

/-- Embedding of struct proc_data from src/main.cpp. -/
structure ProcData where
  id : Int
  priority : Int
  exec_time : Nat
  remaining_time : Nat
deriving DecidableEq, Repr

/-- Comparator proc_data::compare_exec_time. -/
def compare_exec_time (pd1 pd2 : ProcData) : Bool :=
  pd1.exec_time < pd2.exec_time

/-- Comparator proc_data::compare_priority. -/
def compare_priority (pd1 pd2 : ProcData) : Bool :=
  pd1.priority < pd2.priority

/-- Comparator proc_data::compare_remaining_time. -/
def compare_remaining_time (pd1 pd2 : ProcData) : Bool :=
  pd1.remaining_time < pd2.remaining_time

/-- The slot comparator of update_cpus_state:
fun (int i, int j) : (i >= 0 && j >= 0) ? i < j : i > j. -/
def cpuCmp (i j : Int) : Bool :=
  if 0 ≤ i ∧ 0 ≤ j then i < j else j < i

/-- Stable insertion of one element: the new element is placed before the
first existing element that is strictly greater under lt, hence after every
element it ties with.  Used to model std::stable_sort. -/
def insertS (lt : α → α → Bool) (a : α) : List α → List α
  | [] => [a]
  | b :: t => if lt a b then a :: b :: t else b :: insertS lt a t

/-- Stable sort modelling std::stable_sort: elements are inserted left to
right, so elements comparing equal keep their original relative order. -/
def stableSort (lt : α → α → Bool) (l : List α) : List α :=
  l.foldl (fun acc a => insertS lt a acc) []

theorem insertS_perm (lt : α → α → Bool) (a : α) (l : List α) :
    (insertS lt a l).Perm (a :: l) := by
  induction l with
  | nil => simp [insertS]
  | cons b t ih =>
    simp only [insertS]
    split
    · exact List.Perm.refl _
    · exact ((ih.cons b).trans (List.Perm.swap a b t)).symm.symm

theorem foldl_insertS_perm (lt : α → α → Bool) (l acc : List α) :
    (l.foldl (fun acc a => insertS lt a acc) acc).Perm (acc ++ l) := by
  induction l generalizing acc with
  | nil => simp
  | cons x t ih =>
    have h1 : (x :: t).foldl (fun acc a => insertS lt a acc) acc
        = t.foldl (fun acc a => insertS lt a acc) (insertS lt x acc) := rfl
    have h2 := ih (insertS lt x acc)
    have h3 := (insertS_perm lt x acc).append_right t
    have h4 : ((x :: acc) ++ t).Perm (acc ++ x :: t) := by
      simpa using (@List.perm_middle _ x acc t).symm
    rw [h1]
    exact (h2.trans h3).trans h4

theorem stableSort_perm (lt : α → α → Bool) (l : List α) :
    (stableSort lt l).Perm l := by
  simpa [stableSort] using foldl_insertS_perm lt l []

theorem stableSort_length (lt : α → α → Bool) (l : List α) :
    (stableSort lt l).length = l.length :=
  (stableSort_perm lt l).length_eq

theorem stableSort_mem (lt : α → α → Bool) (l : List α) (a : α) :
    a ∈ stableSort lt l ↔ a ∈ l :=
  (stableSort_perm lt l).mem_iff

/-- Sortedness of insertS, under asymmetry of lt and the weak-ordering
transfer property (lt a b and not lt c b imply lt a c). -/
theorem insertS_sorted (lt : α → α → Bool)
    (hasym : ∀ a b, lt a b = true → lt b a = false)
    (htrans : ∀ a b c, lt a b = true → lt c b = false → lt a c = true)
    (a : α) (l : List α) (hl : l.Pairwise (fun x y => lt y x = false)) :
    (insertS lt a l).Pairwise (fun x y => lt y x = false) := by
  induction l with
  | nil => simp [insertS]
  | cons b t ih =>
    rcases List.pairwise_cons.mp hl with ⟨hbt, ht⟩
    simp only [insertS]
    split
    · rename_i hab
      refine List.pairwise_cons.mpr ⟨?_, hl⟩
      intro c hc
      rcases List.mem_cons.mp hc with hc | hc
      · rw [hc]; exact hasym a b hab
      · exact hasym a c (htrans a b c hab (hbt c hc))
    · rename_i hab
      refine List.pairwise_cons.mpr ⟨?_, ih ht⟩
      intro c hc
      have hc2 := (insertS_perm lt a t).mem_iff.mp hc
      rcases List.mem_cons.mp hc2 with hc3 | hc3
      · subst hc3
        exact Bool.eq_false_iff.mpr (fun h => hab h)
      · exact hbt c hc3

theorem stableSort_sorted (lt : α → α → Bool)
    (hasym : ∀ a b, lt a b = true → lt b a = false)
    (htrans : ∀ a b c, lt a b = true → lt c b = false → lt a c = true)
    (l : List α) :
    (stableSort lt l).Pairwise (fun x y => lt y x = false) := by
  suffices h : ∀ acc, acc.Pairwise (fun x y => lt y x = false) →
      (l.foldl (fun acc a => insertS lt a acc) acc).Pairwise
        (fun x y => lt y x = false) by
    exact h [] (by simp)
  induction l with
  | nil => intro acc hacc; simpa using hacc
  | cons x t ih =>
    intro acc hacc
    exact ih (insertS lt x acc) (insertS_sorted lt hasym htrans x acc hacc)

theorem insertS_filter_neg (lt : α → α → Bool) (p : α → Bool) (a : α)
    (l : List α) (ha : p a = false) :
    (insertS lt a l).filter p = l.filter p := by
  induction l with
  | nil => simp [insertS, ha]
  | cons b t ih =>
    simp only [insertS]
    split
    · simp [List.filter_cons, ha]
    · simp [List.filter_cons, ih]

theorem insertS_filter_pos (lt : α → α → Bool) (p : α → Bool) (a : α)
    (htrans : ∀ a b c, lt a b = true → lt c b = false → lt a c = true)
    (l : List α) (hl : l.Pairwise (fun x y => lt y x = false))
    (ha : p a = true)
    (hcl : ∀ b, p b = true → lt a b = false ∧ lt b a = false) :
    (insertS lt a l).filter p = l.filter p ++ [a] := by
  induction l with
  | nil => simp [insertS, ha]
  | cons b t ih =>
    rcases List.pairwise_cons.mp hl with ⟨hbt, ht⟩
    simp only [insertS]
    split
    · rename_i hab
      have hnb : p b = false := by
        by_contra h
        have hb := hcl b (by revert h; cases p b <;> simp)
        rw [hb.1] at hab; exact Bool.false_ne_true hab
      have hnt : t.filter p = [] := by
        rw [List.filter_eq_nil_iff]
        intro c hc hpc
        have hcc := hcl c hpc
        have := htrans a b c hab (hbt c hc)
        rw [hcc.1] at this; exact Bool.false_ne_true this
      simp [List.filter_cons, ha, hnb, hnt]
    · rename_i hab
      rw [List.filter_cons]
      rw [List.filter_cons]
      cases hpb : p b
      · simpa [hpb] using ih ht
      · simpa [hpb] using congrArg (b :: ·) (ih ht)

/-- Stability of stableSort in filter form: filtering out one tie class of
the comparator returns that class in its original input order. -/
theorem stableSort_filter (lt : α → α → Bool) (p : α → Bool)
    (hasym : ∀ a b, lt a b = true → lt b a = false)
    (htrans : ∀ a b c, lt a b = true → lt c b = false → lt a c = true)
    (hclass : ∀ a b, p a = true → p b = true → lt a b = false)
    (l : List α) :
    (stableSort lt l).filter p = l.filter p := by
  suffices h : ∀ acc, acc.Pairwise (fun x y => lt y x = false) →
      (l.foldl (fun acc a => insertS lt a acc) acc).filter p
        = acc.filter p ++ l.filter p by
    simpa using h [] (by simp)
  induction l with
  | nil => intro acc hacc; simp
  | cons x t ih =>
    intro acc hacc
    have hstep : (x :: t).foldl (fun acc a => insertS lt a acc) acc
        = t.foldl (fun acc a => insertS lt a acc) (insertS lt x acc) := rfl
    rw [hstep, ih (insertS lt x acc) (insertS_sorted lt hasym htrans x acc hacc)]
    cases hpx : p x
    · rw [insertS_filter_neg lt p x acc hpx]
      simp [List.filter_cons, hpx]
    · rw [insertS_filter_pos lt p x htrans acc hacc hpx
        (fun b hb => ⟨hclass x b hpx hb, hclass b x hb hpx⟩)]
      simp [List.filter_cons, hpx]

/-- Uniqueness of a stable sort: two lists sorted by the same key order
whose key classes agree elementwise are equal. -/
theorem eq_of_sorted_filter {α : Type _} {κ : Type _} [DecidableEq κ]
    (key : α → κ) (le : κ → κ → Prop)
    (hrefl : ∀ v, le v v) (hanti : ∀ u v, le u v → le v u → u = v)
    (s : List α) :
    ∀ t : List α, s.Pairwise (fun x y => le (key x) (key y)) →
      t.Pairwise (fun x y => le (key x) (key y)) →
      (∀ v, s.filter (fun x => key x = v) = t.filter (fun x => key x = v)) →
      s = t := by
  induction s with
  | nil =>
    intro t _ _ hf
    cases t with
    | nil => rfl
    | cons b t2 =>
      exfalso
      have := hf (key b)
      simp [List.filter_cons] at this
  | cons a s2 ih =>
    intro t hs ht hf
    cases t with
    | nil =>
      exfalso
      have := hf (key a)
      simp [List.filter_cons] at this
    | cons b t2 =>
      rcases List.pairwise_cons.mp hs with ⟨has, hs2⟩
      rcases List.pairwise_cons.mp ht with ⟨hbt, ht2⟩
      have hbmem : b ∈ a :: s2 := by
        have hb : b ∈ (b :: t2).filter (fun x => key x = key b) := by
          simp [List.filter_cons]
        rw [← hf (key b)] at hb
        exact List.mem_of_mem_filter hb
      have hamem : a ∈ b :: t2 := by
        have ha : a ∈ (a :: s2).filter (fun x => key x = key a) := by
          simp [List.filter_cons]
        rw [hf (key a)] at ha
        exact List.mem_of_mem_filter ha
      have hab : le (key a) (key b) := by
        rcases List.mem_cons.mp hbmem with h | h
        · rw [h]; exact hrefl _
        · exact has b h
      have hba : le (key b) (key a) := by
        rcases List.mem_cons.mp hamem with h | h
        · rw [h]; exact hrefl _
        · exact hbt a h
      have hkey : key a = key b := hanti _ _ hab hba
      have hfa := hf (key a)
      rw [List.filter_cons_of_pos (by simp),
          List.filter_cons_of_pos (by simp [hkey])] at hfa
      have hhead : a = b := (List.cons_eq_cons.mp hfa).1
      have htail : s2.filter (fun x => key x = key a)
          = t2.filter (fun x => key x = key a) := (List.cons_eq_cons.mp hfa).2
      have hftail : ∀ v, s2.filter (fun x => key x = v)
          = t2.filter (fun x => key x = v) := by
        intro v
        by_cases hv : v = key a
        · rw [hv]; exact htail
        · have hfv := hf v
          rw [List.filter_cons_of_neg (by simp; intro h; exact hv h.symm),
              List.filter_cons_of_neg
                (by simp; intro h; rw [← hkey] at h; exact hv h.symm)] at hfv
          exact hfv
      rw [hhead, ih t2 hs2 ht2 hftail]

/-- Strict order on Int, used to describe the occupied part of the slot
vector produced by the slot comparator. -/
def intLt (i j : Int) : Bool := i < j

/-- The slot-filling loop of update_cpus_state: each CPU slot receives the
id of the next process of the list, remaining slots become minus one. -/
def fillSlots : List ProcData → List Int → List Int
  | _, [] => []
  | [], _ :: cs => -1 :: fillSlots [] cs
  | p :: l, _ :: cs => p.id :: fillSlots l cs

/-- Embedding of update_cpus_state from src/main.cpp: fill the slots from
the front of the process list, then stable_sort the slot vector with the
slot comparator. -/
def update_cpus_state (proc_list : List ProcData) (cpus_state : List Int) :
    List Int :=
  stableSort cpuCmp (fillSlots proc_list cpus_state)

theorem fillSlots_eq (l : List ProcData) (cs : List Int) :
    fillSlots l cs
      = (l.map (fun p => p.id)).take cs.length
        ++ List.replicate (cs.length - l.length) (-1) := by
  induction cs generalizing l with
  | nil => simp [fillSlots]
  | cons c cs ih =>
    cases l with
    | nil => simp [fillSlots, ih, List.replicate_succ]
    | cons p l => simp [fillSlots, ih l]

theorem cpuCmp_eq_true (i j : Int) :
    cpuCmp i j = true ↔ ((0 ≤ i ∧ 0 ≤ j ∧ i < j) ∨ (¬(0 ≤ i ∧ 0 ≤ j) ∧ j < i)) := by
  unfold cpuCmp
  split <;> rename_i h <;> simp <;> omega

theorem cpuCmp_asym (a b : Int) (h : cpuCmp a b = true) : cpuCmp b a = false := by
  rw [cpuCmp_eq_true] at h
  cases hb : cpuCmp b a
  · rfl
  · rw [cpuCmp_eq_true] at hb; omega

theorem cpuCmp_trans (a b c : Int) (h1 : cpuCmp a b = true)
    (h2 : cpuCmp c b = false) : cpuCmp a c = true := by
  rw [cpuCmp_eq_true] at h1 ⊢
  have h3 : ¬ ((0 ≤ c ∧ 0 ≤ b ∧ c < b) ∨ (¬(0 ≤ c ∧ 0 ≤ b) ∧ b < c)) := by
    intro h
    rw [← cpuCmp_eq_true] at h
    rw [h] at h2
    exact Bool.noConfusion h2
  omega

theorem intLt_asym (a b : Int) (h : intLt a b = true) : intLt b a = false := by
  simp [intLt] at h ⊢; omega

theorem intLt_trans (a b c : Int) (h1 : intLt a b = true)
    (h2 : intLt c b = false) : intLt a c = true := by
  simp [intLt] at h1 h2 ⊢; omega

/-- On nonnegative values the slot comparator is the strict order. -/
theorem cpuCmp_eq_intLt (i j : Int) (hi : 0 ≤ i) (hj : 0 ≤ j) :
    cpuCmp i j = intLt i j := by
  simp [cpuCmp, intLt, hi, hj]

theorem insertS_congr (lt1 lt2 : α → α → Bool) (P : α → Prop) (a : α)
    (l : List α) (ha : P a) (hl : ∀ b ∈ l, P b)
    (hagree : ∀ x y, P x → P y → lt1 x y = lt2 x y) :
    insertS lt1 a l = insertS lt2 a l := by
  induction l with
  | nil => rfl
  | cons b t ih =>
    have hb := hl b (by simp)
    have ht : ∀ x ∈ t, P x := fun x hx => hl x (by simp [hx])
    simp only [insertS, hagree a b ha hb]
    split
    · rfl
    · rw [ih ht]

theorem stableSort_congr (lt1 lt2 : α → α → Bool) (P : α → Prop)
    (l : List α) (hl : ∀ b ∈ l, P b)
    (hagree : ∀ x y, P x → P y → lt1 x y = lt2 x y) :
    stableSort lt1 l = stableSort lt2 l := by
  suffices h : ∀ acc, (∀ b ∈ acc, P b) →
      l.foldl (fun acc a => insertS lt1 a acc) acc
        = l.foldl (fun acc a => insertS lt2 a acc) acc by
    exact h [] (by simp)
  induction l with
  | nil => intro acc _; rfl
  | cons x t ih =>
    intro acc hacc
    have hx : P x := hl x (by simp)
    have ht : ∀ b ∈ t, P b := fun b hb => hl b (by simp [hb])
    have hstep : (x :: t).foldl (fun acc a => insertS lt1 a acc) acc
        = t.foldl (fun acc a => insertS lt1 a acc) (insertS lt1 x acc) := rfl
    have hstep2 : (x :: t).foldl (fun acc a => insertS lt2 a acc) acc
        = t.foldl (fun acc a => insertS lt2 a acc) (insertS lt2 x acc) := rfl
    rw [hstep, hstep2, insertS_congr lt1 lt2 P x acc hx hacc hagree]
    refine ih ht (insertS lt2 x acc) ?_
    intro b hb
    rcases List.mem_cons.mp ((insertS_perm lt2 x acc).mem_iff.mp hb) with h | h
    · rw [h]; exact hx
    · exact hacc b h

theorem insertS_append_last (lt : α → α → Bool) (a : α) (l : List α)
    (h : ∀ b ∈ l, lt a b = false) :
    insertS lt a l = l ++ [a] := by
  induction l with
  | nil => rfl
  | cons b t ih =>
    have hb := h b (by simp)
    simp only [insertS, hb]
    rw [if_neg (by simp), ih (fun c hc => h c (by simp [hc]))]
    rfl

theorem foldl_insert_cpu_replicate (S : List Int) (hS : ∀ b ∈ S, 0 ≤ b)
    (m : Nat) :
    (List.replicate m (-1 : Int)).foldl (fun acc a => insertS cpuCmp a acc) S
      = S ++ List.replicate m (-1) := by
  induction m with
  | zero => simp
  | succ k ihk =>
    rw [List.replicate_succ', List.foldl_append, ihk]
    simp only [List.foldl_cons, List.foldl_nil]
    have hlast : insertS cpuCmp (-1) (S ++ List.replicate k (-1))
        = (S ++ List.replicate k (-1)) ++ [-1] := by
      refine insertS_append_last cpuCmp (-1) _ ?_
      intro b hb
      rcases List.mem_append.mp hb with h | h
      · have hb0 := hS b h
        cases hcb : cpuCmp (-1) b
        · rfl
        · rw [cpuCmp_eq_true] at hcb; omega
      · have hbv : b = -1 := List.eq_of_mem_replicate h
        rw [hbv]
        cases hcb : cpuCmp (-1) (-1)
        · rfl
        · rw [cpuCmp_eq_true] at hcb; omega
    rw [hlast, List.append_assoc, ← List.replicate_succ']

/-- The slot sort on a vector of nonnegative ids followed by idle slots:
the ids are sorted ascending in front, the idle slots stay at the end. -/
theorem stableSort_cpuCmp_ids (xs : List Int) (m : Nat)
    (hxs : ∀ x ∈ xs, 0 ≤ x) :
    stableSort cpuCmp (xs ++ List.replicate m (-1))
      = stableSort intLt xs ++ List.replicate m (-1) := by
  have hfront : stableSort cpuCmp xs = stableSort intLt xs := by
    exact stableSort_congr cpuCmp intLt (fun x => 0 ≤ x) xs hxs
      (fun x y hx hy => cpuCmp_eq_intLt x y hx hy)
  have hmem : ∀ b ∈ stableSort intLt xs, 0 ≤ b := by
    intro b hb; exact hxs b ((stableSort_mem intLt xs b).mp hb)
  have h1 : stableSort cpuCmp (xs ++ List.replicate m (-1))
      = (List.replicate m (-1 : Int)).foldl
          (fun acc a => insertS cpuCmp a acc) (stableSort cpuCmp xs) := by
    unfold stableSort
    rw [List.foldl_append]
  rw [h1, hfront, foldl_insert_cpu_replicate (stableSort intLt xs) hmem m]

/-- Full characterization of update_cpus_state when all process ids are
nonnegative: the first min(N, length) ids sorted ascending, followed by
idle slots. -/
theorem update_cpus_state_eq (l : List ProcData) (cs : List Int)
    (h : ∀ p ∈ l, 0 ≤ p.id) :
    update_cpus_state l cs
      = stableSort intLt ((l.map (fun p => p.id)).take cs.length)
        ++ List.replicate (cs.length - l.length) (-1) := by
  unfold update_cpus_state
  rw [fillSlots_eq]
  refine stableSort_cpuCmp_ids _ _ ?_
  intro x hx
  have hx2 := List.mem_of_mem_take hx
  rcases List.mem_map.mp hx2 with ⟨p, hp, hpx⟩
  rw [← hpx]; exact h p hp

/-- Executed time of a process as computed by rr: the unsigned 32-bit
subtraction exec_time minus remaining_time. -/
def executedTime (p : ProcData) : Nat :=
  (p.exec_time + U32 - p.remaining_time) % U32

/-- The unsigned 32-bit predecrement of the accounting loop. -/
def decWrap (r : Nat) : Nat := (r + U32 - 1) % U32

/-- The skip loop shared by sjf and prio_fcfs_no_preemption: for each CPU
slot, until the iterator reaches the end of the list or an idle slot is
met, the iterator advances once per process whose id equals the slot
value.  Returns the final iterator position as a count. -/
def skipCountGo (l : List ProcData) : Nat → List Int → Nat
  | acc, [] => acc
  | acc, c :: cs =>
    if acc = l.length ∨ c = -1 then acc
    else skipCountGo l (acc + l.countP (fun p => p.id = c)) cs

/-- Embedding of fcfs: no reordering, then update_cpus_state. -/
def fcfs (l : List ProcData) (cs : List Int) : List ProcData × List Int :=
  (l, update_cpus_state l cs)

/-- The list reordering performed by sjf: skip the currently executing
prefix, stably sort the remainder by total execution time. -/
def sjfOrder (l : List ProcData) (cs : List Int) : List ProcData :=
  let c := skipCountGo l 0 cs
  l.take c ++ stableSort compare_exec_time (l.drop c)

/-- Embedding of sjf from src/main.cpp. -/
def sjf (l : List ProcData) (cs : List Int) : List ProcData × List Int :=
  (sjfOrder l cs, update_cpus_state (sjfOrder l cs) cs)

/-- The list reordering performed by srtf: stable sort of the whole list
by remaining time. -/
def srtfOrder (l : List ProcData) : List ProcData :=
  stableSort compare_remaining_time l

/-- Embedding of srtf from src/main.cpp. -/
def srtf (l : List ProcData) (cs : List Int) : List ProcData × List Int :=
  (srtfOrder l, update_cpus_state (srtfOrder l) cs)

/-- One slot of the rr loop: find the first process whose id equals the
slot value; if found and its executed time is a positive multiple of the
slice, erase it and push it to the back; a missing id is skipped. -/
def rrMove (slice : Nat) (c : Int) : List ProcData → List ProcData
  | [] => []
  | p :: t =>
    if p.id = c then
      if 0 < executedTime p ∧ executedTime p % slice = 0 then t ++ [p]
      else p :: t
    else p :: rrMove slice c t

/-- The list reordering performed by rr: iterate over the CPU slots,
stopping at the first idle slot. -/
def rrOrder (slice : Nat) (l : List ProcData) (cs : List Int) :
    List ProcData :=
  (cs.takeWhile (fun c => c ≠ -1)).foldl (fun acc c => rrMove slice c acc) l

/-- Embedding of rr from src/main.cpp. -/
def rr (slice : Nat) (l : List ProcData) (cs : List Int) :
    List ProcData × List Int :=
  (rrOrder slice l cs, update_cpus_state (rrOrder slice l cs) cs)

/-- The list reordering performed by prio_fcfs: a stable sort of the whole
list by priority. -/
def prioFcfsOrder (l : List ProcData) : List ProcData :=
  stableSort compare_priority l

/-- Embedding of prio_fcfs from src/main.cpp. -/
def prio_fcfs (l : List ProcData) (cs : List Int) :
    List ProcData × List Int :=
  (prioFcfsOrder l, update_cpus_state (prioFcfsOrder l) cs)

/-- The list reordering performed by prio_srtf: a stable sort by remaining
time followed by a stable sort by priority. -/
def prioSrtfOrder (l : List ProcData) : List ProcData :=
  stableSort compare_priority (stableSort compare_remaining_time l)

/-- Embedding of prio_srtf from src/main.cpp. -/
def prio_srtf (l : List ProcData) (cs : List Int) :
    List ProcData × List Int :=
  (prioSrtfOrder l, update_cpus_state (prioSrtfOrder l) cs)

/-- Spec-side comparator (from the words of the spec, not the source):
strict lexicographic order by (priority, remaining time), priority
dominating, remaining time breaking priority ties. -/
def lexPrioRem (pd1 pd2 : ProcData) : Bool :=
  decide (pd1.priority < pd2.priority
    ∨ (pd1.priority = pd2.priority
        ∧ pd1.remaining_time < pd2.remaining_time))

/-- The (priority, remaining time) sort key of a process. -/
def prioRemKey (p : ProcData) : Int × Nat := (p.priority, p.remaining_time)

/-- Weak lexicographic order on (priority, remaining time) keys. -/
def lexKeyLE (u v : Int × Nat) : Prop :=
  u.1 < v.1 ∨ (u.1 = v.1 ∧ u.2 ≤ v.2)

/-- The list reordering performed by prio_fcfs_no_preemption: skip the
currently executing prefix, stably sort the remainder by priority. -/
def prioNoPreOrder (l : List ProcData) (cs : List Int) : List ProcData :=
  let c := skipCountGo l 0 cs
  l.take c ++ stableSort compare_priority (l.drop c)

/-- Embedding of prio_fcfs_no_preemption from src/main.cpp. -/
def prio_fcfs_no_preemption (l : List ProcData) (cs : List Int) :
    List ProcData × List Int :=
  (prioNoPreOrder l cs, update_cpus_state (prioNoPreOrder l cs) cs)

/-- The list reordering of the policy selected by the method number from
the switch statement of main; values above six raise invalid_argument and
are handled separately in the step function. -/
def reorderOf (method slice : Nat) (l : List ProcData) (cs : List Int) :
    List ProcData :=
  match method with
  | 0 => l
  | 1 => sjfOrder l cs
  | 2 => srtfOrder l
  | 3 => rrOrder slice l cs
  | 4 => prioFcfsOrder l
  | 5 => prioSrtfOrder l
  | 6 => prioNoPreOrder l cs
  | _ => l

theorem rrMove_perm (slice : Nat) (c : Int) (l : List ProcData) :
    (rrMove slice c l).Perm l := by
  induction l with
  | nil => simp [rrMove]
  | cons p t ih =>
    simp only [rrMove]
    split
    · split
      · have h1 : (t ++ [p]).Perm ([p] ++ t) := List.perm_append_comm
        simp only [List.singleton_append] at h1
        exact h1
      · exact List.Perm.refl _
    · exact ih.cons p

theorem rrOrder_perm (slice : Nat) (l : List ProcData) (cs : List Int) :
    (rrOrder slice l cs).Perm l := by
  unfold rrOrder
  generalize (cs.takeWhile (fun c => c ≠ -1)) = ds
  induction ds generalizing l with
  | nil => simp
  | cons d ds ih =>
    simp only [List.foldl_cons]
    exact (ih (rrMove slice d l)).trans (rrMove_perm slice d l)

theorem takeSort_perm (lt : ProcData → ProcData → Bool) (l : List ProcData)
    (c : Nat) :
    (l.take c ++ stableSort lt (l.drop c)).Perm l := by
  have h1 := (stableSort_perm lt (l.drop c)).append_left (l.take c)
  have h2 : (l.take c ++ l.drop c) = l := List.take_append_drop c l
  rw [h2] at h1
  exact h1

theorem reorderOf_perm (method slice : Nat) (l : List ProcData)
    (cs : List Int) : (reorderOf method slice l cs).Perm l := by
  unfold reorderOf
  match method with
  | 0 => exact List.Perm.refl l
  | 1 => exact takeSort_perm _ l _
  | 2 => exact stableSort_perm _ l
  | 3 => exact rrOrder_perm slice l cs
  | 4 => exact stableSort_perm _ l
  | 5 => exact (stableSort_perm _ _).trans (stableSort_perm _ l)
  | 6 => exact takeSort_perm _ l _
  | (n+7) => exact List.Perm.refl l

/-- One iteration of the accounting loop of main for one occupied slot:
the unguarded linear search walks the list to the first process with the
slot id (a missing id makes the C++ loop run past the end, modelled as
none); the found process has its remaining time predecremented with
unsigned wraparound and is erased when the result is zero. -/
def updateProcs (c : Int) : List ProcData → Option (List ProcData)
  | [] => none
  | p :: t =>
    if p.id = c then
      if decWrap p.remaining_time = 0 then some t
      else some ({ p with remaining_time := decWrap p.remaining_time } :: t)
    else (updateProcs c t).map (fun t2 => p :: t2)

/-- The accounting loop of main over the slot vector: idle slots are
skipped with continue, occupied slots are processed in slot order; a
failed search aborts (undefined behaviour in the C++ loop). -/
def account : List Int → List ProcData → Option (List ProcData)
  | [], l => some l
  | c :: cs, l =>
    if c = -1 then account cs l
    else (updateProcs c l).bind (fun l2 => account cs l2)

/-- The effect of one accounting iteration on the process it touches. -/
def procStep (p : ProcData) : Option ProcData :=
  if decWrap p.remaining_time = 0 then none
  else some { p with remaining_time := decWrap p.remaining_time }

theorem procStep_none (p : ProcData) (h : decWrap p.remaining_time = 0) :
    procStep p = none := by
  unfold procStep
  rw [if_pos h]

theorem procStep_some (p : ProcData) (h : ¬ decWrap p.remaining_time = 0) :
    procStep p
      = some { p with remaining_time := decWrap p.remaining_time } := by
  unfold procStep
  rw [if_neg h]

theorem filterMap_id_of_ne (c : Int) (t : List ProcData)
    (h : ∀ p ∈ t, p.id ≠ c) :
    t.filterMap (fun p => if p.id = c then procStep p else some p) = t := by
  have h2 : ∀ p ∈ t, (if p.id = c then procStep p else some p) = some p := by
    intro p hp
    rw [if_neg (h p hp)]
  rw [List.filterMap_congr h2, List.filterMap_some]

theorem updateProcs_eq (c : Int) (l : List ProcData)
    (hmem : c ∈ l.map (fun p => p.id))
    (hnodup : (l.map (fun p => p.id)).Nodup) :
    updateProcs c l
      = some (l.filterMap (fun p => if p.id = c then procStep p else some p)) := by
  induction l with
  | nil => simp at hmem
  | cons p t ih =>
    simp only [List.map_cons, List.nodup_cons] at hnodup
    by_cases hp : p.id = c
    · have ht : ∀ q ∈ t, q.id ≠ c := by
        intro q hq hqc
        refine hnodup.1 ?_
        rw [hp, ← hqc]
        exact List.mem_map_of_mem _ hq
      have htf := filterMap_id_of_ne c t ht
      by_cases hz : decWrap p.remaining_time = 0
      · rw [List.filterMap_cons, if_pos hp, procStep_none p hz]
        simp only [updateProcs]
        rw [if_pos hp, if_pos hz, htf]
      · rw [List.filterMap_cons, if_pos hp, procStep_some p hz]
        simp only [updateProcs]
        rw [if_pos hp, if_neg hz, htf]
    · have hmem2 : c ∈ t.map (fun p => p.id) := by
        rcases List.mem_cons.mp hmem with h | h
        · exact absurd h.symm hp
        · exact h
      simp only [updateProcs]
      rw [if_neg hp, ih hmem2 hnodup.2, List.filterMap_cons, if_neg hp]
      rfl

theorem filterMap_step_ids_sublist (f : ProcData → Option ProcData)
    (hf : ∀ p q, f p = some q → q.id = p.id) (l : List ProcData) :
    ((l.filterMap f).map (fun p => p.id)).Sublist (l.map (fun p => p.id)) := by
  induction l with
  | nil => simp
  | cons p t ih =>
    rw [List.filterMap_cons]
    cases hfp : f p with
    | none => exact ih.cons p.id
    | some q =>
      rw [List.map_cons, List.map_cons, hf p q hfp]
      exact ih.cons₂ p.id

theorem step_id_eq (p q : ProcData)
    (h : (if p.id = c then procStep p else some p) = some q) : q.id = p.id := by
  by_cases hp : p.id = c
  · rw [if_pos hp] at h
    by_cases hz : decWrap p.remaining_time = 0
    · rw [procStep_none p hz] at h
      exact Option.noConfusion h
    · rw [procStep_some p hz] at h
      cases Option.some.inj h
      rfl
  · rw [if_neg hp] at h
    cases Option.some.inj h
    rfl

/-- Characterization of the accounting loop: when the non-idle slot values
are distinct and all present among the (distinct) process ids, the loop
succeeds and decrements each slotted process once, erasing those whose
remaining time reaches zero and leaving every other process unchanged. -/
theorem account_eq (S : List Int) (l : List ProcData)
    (hS : ∀ c ∈ S, c ≠ -1 → c ∈ l.map (fun p => p.id))
    (hSnodup : (S.filter (fun c => c ≠ -1)).Nodup)
    (hnodup : (l.map (fun p => p.id)).Nodup) :
    account S l
      = some (l.filterMap
          (fun p => if p.id ∈ S ∧ p.id ≠ -1 then procStep p else some p)) := by
  induction S generalizing l with
  | nil =>
    simp only [account]
    congr 1
    have h2 : ∀ p ∈ l,
        (if p.id ∈ ([] : List Int) ∧ p.id ≠ -1 then procStep p else some p)
          = some p := by
      intro p hp
      rw [if_neg (by simp)]
    rw [List.filterMap_congr h2, List.filterMap_some]
  | cons c S ih =>
    by_cases hc : c = -1
    · simp only [account, if_pos hc]
      rw [hc] at hSnodup ⊢
      have hSn : (S.filter (fun c => c ≠ -1)).Nodup := by
        simpa using hSnodup
      rw [ih l (fun d hd hd1 => hS d (by simp [hd]) hd1) hSn hnodup]
      congr 1
      refine List.filterMap_congr ?_
      intro p hp
      by_cases hpid : p.id = -1
      · rw [if_neg (by simp [hpid]), if_neg (by simp [hpid])]
      · by_cases hmem : p.id ∈ S
        · rw [if_pos ⟨hmem, hpid⟩, if_pos ⟨by simp [hmem], hpid⟩]
        · rw [if_neg (by simp [hmem]), if_neg (by simp [hmem, hpid])]
    · have hcl : c ∈ l.map (fun p => p.id) := hS c (by simp) hc
      have hfilter : (c :: S).filter (fun c => c ≠ -1)
          = c :: S.filter (fun c => c ≠ -1) := by
        rw [List.filter_cons_of_pos (by simp [hc])]
      rw [hfilter] at hSnodup
      have hcS : c ∉ S.filter (fun c => c ≠ -1) :=
        (List.nodup_cons.mp hSnodup).1
      have hSn : (S.filter (fun c => c ≠ -1)).Nodup :=
        (List.nodup_cons.mp hSnodup).2
      simp only [account, if_neg hc]
      rw [updateProcs_eq c l hcl hnodup]
      simp only [Option.some_bind]
      set l2 := l.filterMap (fun p => if p.id = c then procStep p else some p)
        with hl2
      have hsub : (l2.map (fun p => p.id)).Sublist (l.map (fun p => p.id)) :=
        filterMap_step_ids_sublist _ (fun p q h => step_id_eq p q h) l
      have hnodup2 : (l2.map (fun p => p.id)).Nodup := hsub.nodup hnodup
      have hmem2 : ∀ d ∈ S, d ≠ -1 → d ∈ l2.map (fun p => p.id) := by
        intro d hd hd1
        have hdc : d ≠ c := by
          intro h
          rw [h] at hd hd1
          exact hcS (List.mem_filter.mpr ⟨hd, by simp [hc]⟩)
        have hdl : d ∈ l.map (fun p => p.id) := hS d (by simp [hd]) hd1
        rcases List.mem_map.mp hdl with ⟨p, hp, hpd⟩
        refine List.mem_map.mpr ⟨p, ?_, hpd⟩
        refine List.mem_filterMap.mpr ⟨p, hp, ?_⟩
        rw [if_neg (by rw [hpd]; exact hdc)]
      rw [ih l2 hmem2 hSn hnodup2]
      congr 1
      rw [hl2, List.filterMap_filterMap]
      refine List.filterMap_congr ?_
      intro p hp
      have hcnS : c ∉ S := by
        intro h
        exact hcS (List.mem_filter.mpr ⟨h, by simp [hc]⟩)
      by_cases hpc : p.id = c
      · rw [if_pos hpc, if_pos ⟨by simp [hpc], by rw [hpc]; exact hc⟩]
        by_cases hz : decWrap p.remaining_time = 0
        · rw [procStep_none p hz]
          rfl
        · rw [procStep_some p hz]
          simp only [Option.some_bind]
          rw [if_neg (by
            intro hcon
            have hcon2 := hcon.1
            rw [show ({ p with remaining_time := decWrap p.remaining_time }
                  : ProcData).id = p.id from rfl, hpc] at hcon2
            exact hcnS hcon2)]
      · rw [if_neg hpc]
        simp only [Option.some_bind]
        have hiff : (p.id ∈ c :: S) ↔ (p.id ∈ S) := by
          simp [hpc]
        by_cases hmem3 : p.id ∈ S ∧ p.id ≠ -1
        · rw [if_pos hmem3, if_pos ⟨hiff.mpr hmem3.1, hmem3.2⟩]
        · rw [if_neg hmem3, if_neg (by rw [hiff]; exact hmem3)]

/-- One parsed arrival tuple (id, priority, execution time) as read by the
overloaded input operator, which initializes remaining_time to exec_time. -/
structure Arrival where
  id : Int
  priority : Int
  exec_time : Nat
deriving DecidableEq, Repr

/-- The proc_data built by operator>> for one arrival tuple. -/
def Arrival.toProc (a : Arrival) : ProcData :=
  { id := a.id, priority := a.priority, exec_time := a.exec_time,
    remaining_time := a.exec_time }

/-- One input line: the declared timestamp and the arrival tuples on it. -/
structure Group where
  time : Nat
  arrivals : List Arrival
deriving DecidableEq, Repr

/-- The loop state of main: the read flag, the remaining input lines, the
process list, the CPU state vector, and the simulated time. -/
structure SimState where
  readFlag : Bool
  input : List Group
  procs : List ProcData
  cpus : List Int
  time : Nat
deriving DecidableEq, Repr

/-- One emitted output line: the tick number and the slot values. -/
structure Record where
  time : Nat
  slots : List Int
deriving DecidableEq, Repr

/-- The input-reading block at the top of the loop body: while the read
flag is set, one line is read; a blank line clears the flag, otherwise the
declared timestamp is stored into the simulated time variable and the new
processes are appended to the list. -/
def admitIn (s : SimState) : SimState :=
  if s.readFlag then
    match s.input with
    | [] => { s with readFlag := false }
    | g :: rest =>
      { s with input := rest, time := g.time,
               procs := s.procs ++ g.arrivals.map Arrival.toProc }
  else s

/-- Embedding of all_cpus_sleeping from src/main.cpp. -/
def all_cpus_sleeping (cs : List Int) : Bool := cs.all (fun c => c = -1)

/-- Negation of the loop condition of main: no input remains and every CPU
is sleeping. -/
def simDone (s : SimState) : Bool := !s.readFlag && all_cpus_sleeping s.cpus

/-- One iteration of the simulation loop of main: admission, dispatch of
the scheduling method (the switch default for a method number above six
throws invalid_argument, modelled as none), execution accounting, output
of one record, and the time increment (an unsigned int). -/
def stepSim (method slice : Nat) (s : SimState) :
    Option (SimState × Record) :=
  if 7 ≤ method then none
  else
    (account
        (update_cpus_state
          (reorderOf method slice (admitIn s).procs (admitIn s).cpus)
          (admitIn s).cpus)
        (reorderOf method slice (admitIn s).procs (admitIn s).cpus)).map
      (fun l3 =>
        ({ admitIn s with
            procs := l3,
            cpus := update_cpus_state
              (reorderOf method slice (admitIn s).procs (admitIn s).cpus)
              (admitIn s).cpus,
            time := ((admitIn s).time + 1) % U32 },
         { time := (admitIn s).time,
           slots := update_cpus_state
             (reorderOf method slice (admitIn s).procs (admitIn s).cpus)
             (admitIn s).cpus }))

/-- The simulation loop of main with explicit fuel: it stops as soon as
the loop condition fails, returning the final state and the emitted
records; exhausted fuel or a failed step returns none. -/
def runSim (method slice : Nat) : Nat → SimState → Option (SimState × List Record)
  | 0, s => if simDone s then some (s, []) else none
  | fuel + 1, s =>
    if simDone s then some (s, [])
    else
      match stepSim method slice s with
      | none => none
      | some (s2, r) =>
        (runSim method slice fuel s2).map (fun q => (q.1, r :: q.2))

/-- The state of main before the first loop iteration: the CPU vector is
value-initialized to zeros, not to the idle sentinel. -/
def initState (cpu_count : Nat) (input : List Group) : SimState :=
  { readFlag := true, input := input, procs := [],
    cpus := List.replicate cpu_count 0, time := 0 }

/-- The occupied slot values of a CPU vector. -/
def occSlots (cs : List Int) : List Int := cs.filter (fun c => c ≠ -1)

/-- The ids declared by the arrivals of one group. -/
def Group.ids (g : Group) : List Int := g.arrivals.map (fun a => a.id)

/-- All ids declared by an input. -/
def inputIds (inp : List Group) : List Int := inp.flatMap Group.ids

/-- Total remaining time of a process list. -/
def sumRem (l : List ProcData) : Nat :=
  (l.map (fun p => p.remaining_time)).sum

/-- Total declared execution time of an input. -/
def inputExec (inp : List Group) : Nat :=
  (inp.map (fun g => (g.arrivals.map (fun a => a.exec_time)).sum)).sum

/-- Remaining time attributed to one id in a process list. -/
def remOf (i : Int) (l : List ProcData) : Nat :=
  sumRem (l.filter (fun p => p.id = i))

/-- Declared execution time attributed to one id in an input. -/
def execOf (i : Int) (inp : List Group) : Nat :=
  (((inp.flatMap (fun g => g.arrivals)).filter (fun a => a.id = i)).map
    (fun a => a.exec_time)).sum

/-- Number of future slot appearances an id is owed by a state. -/
def expectedOf (i : Int) (s : SimState) : Nat :=
  remOf i s.procs + (if s.readFlag then execOf i s.input else 0)

/-- Termination measure of the simulation loop. -/
def measureSim (s : SimState) : Nat :=
  (if s.readFlag then s.input.length + 1 + inputExec s.input else 0)
    + sumRem s.procs + (if simDone s then 0 else 1)

/-- Well-formed input: globally distinct ids, nonnegative ids, and
execution times that are positive and representable in 32 bits. -/
def WFInput (inp : List Group) : Prop :=
  (inputIds inp).Nodup ∧
  ∀ g ∈ inp, ∀ a ∈ g.arrivals,
    0 ≤ a.id ∧ 1 ≤ a.exec_time ∧ a.exec_time < U32

/-- Invariant on the mutable data of the loop, holding after admission as
well as at the top of every iteration. -/
structure PInv (N : Nat) (s : SimState) : Prop where
  cpus_len : s.cpus.length = N
  ids_nodup : (s.procs.map (fun p => p.id)).Nodup
  ids_nonneg : ∀ p ∈ s.procs, 0 ≤ p.id
  rem_pos : ∀ p ∈ s.procs, 1 ≤ p.remaining_time
  rem_lt : ∀ p ∈ s.procs, p.remaining_time < U32
  input_wf : WFInput s.input
  fresh : ∀ p ∈ s.procs, p.id ∉ inputIds s.input

/-- Invariant at the top of every loop iteration: additionally, a fully
sleeping CPU vector means the process list is empty. -/
structure GInv (N : Nat) (s : SimState) extends PInv N s : Prop where
  sleep_empty : all_cpus_sleeping s.cpus = true → s.procs = []

theorem decWrap_pos (r : Nat) (h1 : 1 ≤ r) (h2 : r < U32) :
    decWrap r = r - 1 := by
  have hU : U32 = 2 ^ 32 := rfl
  unfold decWrap
  rw [hU] at h2 ⊢
  omega

theorem decWrap_zero : decWrap 0 = U32 - 1 := rfl

theorem inputIds_cons (g : Group) (rest : List Group) :
    inputIds (g :: rest) = g.ids ++ inputIds rest := by
  unfold inputIds
  rw [List.flatMap_cons]

theorem admit_notread (s : SimState) (h : s.readFlag = false) :
    admitIn s = s := by
  unfold admitIn
  rw [h]
  rfl

theorem admit_nil (s : SimState) (h1 : s.readFlag = true)
    (h2 : s.input = []) : admitIn s = { s with readFlag := false } := by
  unfold admitIn
  rw [h1, h2]
  rfl

theorem admit_cons (s : SimState) (g : Group) (rest : List Group)
    (h1 : s.readFlag = true) (h2 : s.input = g :: rest) :
    admitIn s = { s with
                input := rest
                time := g.time
                procs := s.procs ++ g.arrivals.map Arrival.toProc } := by
  unfold admitIn
  rw [h1, h2]
  rfl

/-- Admission preserves the data invariant. -/
theorem admit_pinv (N : Nat) (s : SimState) (h : PInv N s) :
    PInv N (admitIn s) := by
  cases hr : s.readFlag with
  | false => rw [admit_notread s hr]; exact h
  | true =>
    cases hi : s.input with
    | nil =>
      rw [admit_nil s hr hi]
      exact ⟨h.cpus_len, h.ids_nodup, h.ids_nonneg, h.rem_pos, h.rem_lt,
             h.input_wf, h.fresh⟩
    | cons g rest =>
      rw [admit_cons s g rest hr hi]
      have hwf : WFInput (g :: rest) := by rw [← hi]; exact h.input_wf
      have hni : (inputIds (g :: rest)).Nodup := hwf.1
      rw [inputIds_cons] at hni
      have hgn : g.ids.Nodup := hni.of_append_left
      have hrn : (inputIds rest).Nodup := hni.of_append_right
      have hdisj := List.disjoint_of_nodup_append hni
      have hmap : (g.arrivals.map Arrival.toProc).map (fun p => p.id) = g.ids := by
        rw [List.map_map]
        rfl
      have hfresh0 : ∀ p ∈ s.procs, p.id ∉ g.ids ++ inputIds rest := by
        intro p hp
        have h2 := h.fresh p hp
        rw [hi, inputIds_cons] at h2
        exact h2
      have harr : ∀ a ∈ g.arrivals,
          0 ≤ a.id ∧ 1 ≤ a.exec_time ∧ a.exec_time < U32 :=
        fun a ha => hwf.2 g (by simp) a ha
      refine
        { cpus_len := h.cpus_len
          ids_nodup := ?_
          ids_nonneg := ?_
          rem_pos := ?_
          rem_lt := ?_
          input_wf := ⟨hrn, fun g2 hg2 => hwf.2 g2 (by simp [hg2])⟩
          fresh := ?_ }
      · show ((s.procs ++ g.arrivals.map Arrival.toProc).map
            (fun p => p.id)).Nodup
        rw [List.map_append, hmap]
        refine h.ids_nodup.append hgn ?_
        intro a ha hb
        rcases List.mem_map.mp ha with ⟨p, hp, hpa⟩
        refine hfresh0 p hp ?_
        rw [← hpa] at hb
        exact List.mem_append.mpr (Or.inl hb)
      · show ∀ p ∈ s.procs ++ g.arrivals.map Arrival.toProc, 0 ≤ p.id
        intro p hp
        rcases List.mem_append.mp hp with h2 | h2
        · exact h.ids_nonneg p h2
        · rcases List.mem_map.mp h2 with ⟨a, ha, hap⟩
          rw [← hap]
          exact (harr a ha).1
      · show ∀ p ∈ s.procs ++ g.arrivals.map Arrival.toProc,
          1 ≤ p.remaining_time
        intro p hp
        rcases List.mem_append.mp hp with h2 | h2
        · exact h.rem_pos p h2
        · rcases List.mem_map.mp h2 with ⟨a, ha, hap⟩
          rw [← hap]
          exact (harr a ha).2.1
      · show ∀ p ∈ s.procs ++ g.arrivals.map Arrival.toProc,
          p.remaining_time < U32
        intro p hp
        rcases List.mem_append.mp hp with h2 | h2
        · exact h.rem_lt p h2
        · rcases List.mem_map.mp h2 with ⟨a, ha, hap⟩
          rw [← hap]
          exact (harr a ha).2.2
      · show ∀ p ∈ s.procs ++ g.arrivals.map Arrival.toProc,
          p.id ∉ inputIds rest
        intro p hp
        rcases List.mem_append.mp hp with h2 | h2
        · intro hmem
          exact hfresh0 p h2 (List.mem_append.mpr (Or.inr hmem))
        · rcases List.mem_map.mp h2 with ⟨a, ha, hap⟩
          rw [← hap]
          intro hmem
          refine hdisj ?_ hmem
          show (Arrival.toProc a).id ∈ g.ids
          exact List.mem_map.mpr ⟨a, ha, rfl⟩

/-- The reordered process list produced within one step. -/
def stepList (method slice : Nat) (s : SimState) : List ProcData :=
  reorderOf method slice (admitIn s).procs (admitIn s).cpus

/-- The CPU vector produced within one step. -/
def stepCpus (method slice : Nat) (s : SimState) : List Int :=
  update_cpus_state (stepList method slice s) (admitIn s).cpus

/-- The process list after the accounting loop: the first k processes are
decremented (and dropped when finished), the rest are untouched. -/
def accounted (l : List ProcData) (k : Nat) : List ProcData :=
  (l.take k).filterMap procStep ++ l.drop k

theorem fillSlots_length (l : List ProcData) (cs : List Int) :
    (fillSlots l cs).length = cs.length := by
  rw [fillSlots_eq]
  simp only [List.length_append, List.length_take, List.length_replicate,
    List.length_map]
  omega

theorem update_cpus_state_length (l : List ProcData) (cs : List Int) :
    (update_cpus_state l cs).length = cs.length := by
  unfold update_cpus_state
  rw [stableSort_length, fillSlots_length]

theorem filter_replicate_neg_one (m : Nat) :
    (List.replicate m (-1 : Int)).filter (fun c => c ≠ -1) = [] := by
  induction m with
  | zero => rfl
  | succ k ih =>
    rw [List.replicate_succ, List.filter_cons_of_neg (by simp)]
    exact ih

theorem occSlots_update (l : List ProcData) (cs : List Int)
    (h : ∀ p ∈ l, 0 ≤ p.id) :
    occSlots (update_cpus_state l cs)
      = stableSort intLt ((l.map (fun p => p.id)).take cs.length) := by
  rw [update_cpus_state_eq l cs h]
  unfold occSlots
  rw [List.filter_append, filter_replicate_neg_one, List.append_nil]
  rw [List.filter_eq_self.mpr]
  intro a ha
  have ha2 := (stableSort_mem intLt _ a).mp ha
  have ha3 := List.mem_of_mem_take ha2
  rcases List.mem_map.mp ha3 with ⟨p, hp, hpa⟩
  have h4 := h p hp
  rw [hpa] at h4
  simp only [ne_eq, decide_eq_true_eq]
  omega

theorem occSlots_update_perm (l : List ProcData) (cs : List Int)
    (h : ∀ p ∈ l, 0 ≤ p.id) :
    (occSlots (update_cpus_state l cs)).Perm
      ((l.map (fun p => p.id)).take cs.length) := by
  rw [occSlots_update l cs h]
  exact stableSort_perm _ _

theorem occSlots_update_nodup (l : List ProcData) (cs : List Int)
    (h : ∀ p ∈ l, 0 ≤ p.id) (hnodup : (l.map (fun p => p.id)).Nodup) :
    (occSlots (update_cpus_state l cs)).Nodup :=
  ((occSlots_update_perm l cs h).nodup_iff).mpr
    (List.Nodup.sublist (List.take_sublist _ _) hnodup)

theorem update_mem (l : List ProcData) (cs : List Int)
    (h : ∀ p ∈ l, 0 ≤ p.id) :
    ∀ c ∈ update_cpus_state l cs, c ≠ -1 → c ∈ l.map (fun p => p.id) := by
  rw [update_cpus_state_eq l cs h]
  intro c hc hc1
  rcases List.mem_append.mp hc with h2 | h2
  · exact List.mem_of_mem_take ((stableSort_mem intLt _ c).mp h2)
  · exact absurd (List.eq_of_mem_replicate h2) hc1

theorem filterMap_cond_split (F G : ProcData → Option ProcData)
    (A B : List ProcData)
    (hA : ∀ p ∈ A, F p = G p) (hB : ∀ p ∈ B, F p = some p) :
    (A ++ B).filterMap F = A.filterMap G ++ B := by
  rw [List.filterMap_append, List.filterMap_congr hA,
    List.filterMap_congr hB, List.filterMap_some]

theorem take_min_eq (l : List ProcData) (n : Nat) :
    (l.map (fun p => p.id)).take n
      = (l.take (min n l.length)).map (fun p => p.id) := by
  rw [List.map_take]
  rcases Nat.le_total n l.length with h | h
  · rw [Nat.min_eq_left h]
  · rw [Nat.min_eq_right h]
    rw [List.take_of_length_le (by simp [h]),
        List.take_of_length_le (by simp)]

/-- The accounting loop applied to the freshly updated CPU vector always
succeeds and decrements exactly the first min(N, length) processes. -/
theorem account_update (l : List ProcData) (cs : List Int)
    (hnodup : (l.map (fun p => p.id)).Nodup)
    (hnonneg : ∀ p ∈ l, 0 ≤ p.id) :
    account (update_cpus_state l cs) l
      = some (accounted l (min cs.length l.length)) := by
  have hS := update_mem l cs hnonneg
  have hSnodup : ((update_cpus_state l cs).filter (fun c => c ≠ -1)).Nodup :=
    occSlots_update_nodup l cs hnonneg hnodup
  rw [account_eq _ l hS hSnodup hnodup]
  congr 1
  have htake := take_min_eq l cs.length
  have hsplit : (l.map (fun p => p.id))
      = (l.take (min cs.length l.length)).map (fun p => p.id)
        ++ (l.drop (min cs.length l.length)).map (fun p => p.id) := by
    rw [← List.map_append, List.take_append_drop]
  have hdisj : ∀ c, c ∈ (l.take (min cs.length l.length)).map (fun p => p.id)
      → c ∈ (l.drop (min cs.length l.length)).map (fun p => p.id) → False := by
    intro c h1 h2
    rw [hsplit] at hnodup
    exact List.disjoint_of_nodup_append hnodup h1 h2
  have hmem_up : ∀ c, c ∈ (l.take (min cs.length l.length)).map (fun p => p.id)
      → c ∈ update_cpus_state l cs := by
    intro c hc
    rw [update_cpus_state_eq l cs hnonneg]
    refine List.mem_append.mpr (Or.inl ?_)
    rw [htake]
    exact (stableSort_mem intLt _ c).mpr hc
  have hup_mem : ∀ c ∈ update_cpus_state l cs, c ≠ -1
      → c ∈ (l.take (min cs.length l.length)).map (fun p => p.id) := by
    intro c hc hc1
    rw [update_cpus_state_eq l cs hnonneg] at hc
    rcases List.mem_append.mp hc with h2 | h2
    · rw [← htake]
      exact (stableSort_mem intLt _ c).mp h2
    · exact absurd (List.eq_of_mem_replicate h2) hc1
  have hA : ∀ p ∈ l.take (min cs.length l.length),
      (if p.id ∈ update_cpus_state l cs ∧ p.id ≠ -1 then procStep p
       else some p) = procStep p := by
    intro p hp
    have hid : p.id ∈ (l.take (min cs.length l.length)).map (fun p => p.id) :=
      List.mem_map.mpr ⟨p, hp, rfl⟩
    have hnn : 0 ≤ p.id := hnonneg p (List.mem_of_mem_take hp)
    rw [if_pos ⟨hmem_up p.id hid, by omega⟩]
  have hB : ∀ p ∈ l.drop (min cs.length l.length),
      (if p.id ∈ update_cpus_state l cs ∧ p.id ≠ -1 then procStep p
       else some p) = some p := by
    intro p hp
    rw [if_neg ?_]
    intro hcon
    have hid := hup_mem p.id hcon.1 hcon.2
    exact hdisj p.id hid (List.mem_map.mpr ⟨p, hp, rfl⟩)
  have hmain := filterMap_cond_split
    (fun p => if p.id ∈ update_cpus_state l cs ∧ p.id ≠ -1 then procStep p
              else some p)
    procStep (l.take (min cs.length l.length))
    (l.drop (min cs.length l.length)) hA hB
  rw [List.take_append_drop] at hmain
  rw [hmain]
  rfl

theorem stepSim_eq0 (method slice : Nat) (s : SimState)
    (hm : ¬ 7 ≤ method) :
    stepSim method slice s
      = (account (stepCpus method slice s) (stepList method slice s)).map
          (fun l3 =>
            ({ admitIn s with
                procs := l3
                cpus := stepCpus method slice s
                time := ((admitIn s).time + 1) % U32 },
             { time := (admitIn s).time,
               slots := stepCpus method slice s })) := by
  unfold stepSim stepCpus stepList
  rw [if_neg hm]

theorem stepList_nodup (method slice : Nat) (s : SimState)
    (h : ((admitIn s).procs.map (fun p => p.id)).Nodup) :
    ((stepList method slice s).map (fun p => p.id)).Nodup :=
  (((reorderOf_perm method slice (admitIn s).procs (admitIn s).cpus).map
    (fun p => p.id)).nodup_iff).mpr h

theorem stepList_mem (method slice : Nat) (s : SimState) (p : ProcData) :
    p ∈ stepList method slice s ↔ p ∈ (admitIn s).procs :=
  (reorderOf_perm method slice (admitIn s).procs (admitIn s).cpus).mem_iff

/-- One successful loop iteration in closed form. -/
theorem stepSim_eq (method slice : Nat) (s : SimState) (hm : method ≤ 6)
    (hnodup : ((admitIn s).procs.map (fun p => p.id)).Nodup)
    (hnonneg : ∀ p ∈ (admitIn s).procs, 0 ≤ p.id) :
    stepSim method slice s
      = some
        ({ admitIn s with
            procs := accounted (stepList method slice s)
              (min (admitIn s).cpus.length (stepList method slice s).length)
            cpus := stepCpus method slice s
            time := ((admitIn s).time + 1) % U32 },
         { time := (admitIn s).time,
           slots := stepCpus method slice s }) := by
  rw [stepSim_eq0 method slice s (by omega)]
  rw [show stepCpus method slice s
      = update_cpus_state (stepList method slice s) (admitIn s).cpus from rfl]
  rw [account_update (stepList method slice s) (admitIn s).cpus
    (stepList_nodup method slice s hnodup)
    (fun p hp => hnonneg p ((stepList_mem method slice s p).mp hp))]
  rfl

theorem procStep_id (p q : ProcData) (h : procStep p = some q) :
    q.id = p.id := by
  by_cases hz : decWrap p.remaining_time = 0
  · rw [procStep_none p hz] at h
    exact Option.noConfusion h
  · rw [procStep_some p hz] at h
    cases Option.some.inj h
    rfl

theorem procStep_some_inv (p q : ProcData) (h : procStep p = some q) :
    q = { p with remaining_time := decWrap p.remaining_time }
      ∧ ¬ decWrap p.remaining_time = 0 := by
  by_cases hz : decWrap p.remaining_time = 0
  · rw [procStep_none p hz] at h
    exact Option.noConfusion h
  · rw [procStep_some p hz] at h
    exact ⟨(Option.some.inj h).symm, hz⟩

theorem mem_accounted (l : List ProcData) (k : Nat) (q : ProcData) :
    q ∈ accounted l k
      ↔ (∃ p ∈ l.take k, procStep p = some q) ∨ q ∈ l.drop k := by
  unfold accounted
  rw [List.mem_append, List.mem_filterMap]

theorem accounted_id_of_mem (l : List ProcData) (k : Nat) (q : ProcData)
    (hq : q ∈ accounted l k) : ∃ p ∈ l, q.id = p.id := by
  rcases (mem_accounted l k q).mp hq with ⟨p, hp, hps⟩ | h2
  · exact ⟨p, List.mem_of_mem_take hp, procStep_id p q hps⟩
  · exact ⟨q, List.mem_of_mem_drop h2, rfl⟩

theorem accounted_ids_sublist (l : List ProcData) (k : Nat) :
    ((accounted l k).map (fun p => p.id)).Sublist
      (l.map (fun p => p.id)) := by
  unfold accounted
  rw [List.map_append]
  have h1 := filterMap_step_ids_sublist procStep
    (fun p q h => procStep_id p q h) (l.take k)
  have h2 := h1.append (List.Sublist.refl ((l.drop k).map (fun p => p.id)))
  have h4 : (l.take k).map (fun p => p.id) ++ (l.drop k).map (fun p => p.id)
      = l.map (fun p => p.id) := by
    rw [← List.map_append, List.take_append_drop]
  rw [h4] at h2
  exact h2

theorem accounted_rem (l : List ProcData) (k : Nat)
    (hpos : ∀ p ∈ l, 1 ≤ p.remaining_time)
    (hlt : ∀ p ∈ l, p.remaining_time < U32) :
    ∀ q ∈ accounted l k,
      1 ≤ q.remaining_time ∧ q.remaining_time < U32 := by
  intro q hq
  rcases (mem_accounted l k q).mp hq with ⟨p, hp, hps⟩ | h2
  · have hpl := List.mem_of_mem_take hp
    rcases procStep_some_inv p q hps with ⟨hq2, hnz⟩
    have hd := decWrap_pos p.remaining_time (hpos p hpl) (hlt p hpl)
    have hrem : q.remaining_time = p.remaining_time - 1 := by
      rw [hq2, hd]
    rw [hd] at hnz
    constructor
    · omega
    · have := hlt p hpl
      omega
  · exact ⟨hpos q (List.mem_of_mem_drop h2), hlt q (List.mem_of_mem_drop h2)⟩

theorem sumRem_filterMap_procStep (t : List ProcData)
    (hpos : ∀ p ∈ t, 1 ≤ p.remaining_time)
    (hlt : ∀ p ∈ t, p.remaining_time < U32) :
    sumRem (t.filterMap procStep) + t.length = sumRem t := by
  induction t with
  | nil => rfl
  | cons p t ih =>
    have hp1 := hpos p (by simp)
    have hp2 := hlt p (by simp)
    have ih2 := ih (fun q hq => hpos q (by simp [hq]))
      (fun q hq => hlt q (by simp [hq]))
    have hd := decWrap_pos p.remaining_time hp1 hp2
    by_cases hz : decWrap p.remaining_time = 0
    · rw [List.filterMap_cons_none (procStep_none p hz)]
      have hsum : sumRem (p :: t) = p.remaining_time + sumRem t := rfl
      have hlen : (p :: t).length = t.length + 1 := rfl
      rw [hsum, hlen]
      omega
    · rw [List.filterMap_cons_some (procStep_some p hz)]
      have hsum : sumRem (p :: t) = p.remaining_time + sumRem t := rfl
      have hsum2 : sumRem ({ p with remaining_time := decWrap p.remaining_time }
          :: t.filterMap procStep)
          = decWrap p.remaining_time + sumRem (t.filterMap procStep) := rfl
      have hlen : (p :: t).length = t.length + 1 := rfl
      rw [hsum, hsum2, hlen]
      omega

theorem sumRem_append (a b : List ProcData) :
    sumRem (a ++ b) = sumRem a + sumRem b := by
  unfold sumRem
  rw [List.map_append, List.sum_append]

theorem sumRem_accounted (l : List ProcData) (k : Nat)
    (hpos : ∀ p ∈ l, 1 ≤ p.remaining_time)
    (hlt : ∀ p ∈ l, p.remaining_time < U32) :
    sumRem (accounted l k) + (l.take k).length = sumRem l := by
  unfold accounted
  rw [sumRem_append]
  have h1 := sumRem_filterMap_procStep (l.take k)
    (fun p hp => hpos p (List.mem_of_mem_take hp))
    (fun p hp => hlt p (List.mem_of_mem_take hp))
  have h2 : sumRem (l.take k) + sumRem (l.drop k) = sumRem l := by
    rw [← sumRem_append, List.take_append_drop]
  omega

theorem sumRem_perm (a b : List ProcData) (h : a.Perm b) :
    sumRem a = sumRem b := by
  unfold sumRem
  exact (h.map (fun p => p.remaining_time)).sum_eq

theorem remOf_perm (i : Int) (a b : List ProcData) (h : a.Perm b) :
    remOf i a = remOf i b := by
  unfold remOf
  exact sumRem_perm _ _ (h.filter _)

theorem remOf_append (i : Int) (a b : List ProcData) :
    remOf i (a ++ b) = remOf i a + remOf i b := by
  unfold remOf
  rw [List.filter_append, sumRem_append]

/-- One accounting pass, restricted to one id: the remaining time owed to
that id decreases by the number of processes of that id among the first k,
each of which contributes one tick. -/
theorem remOf_accounted (i : Int) (l : List ProcData) (k : Nat)
    (hpos : ∀ p ∈ l, 1 ≤ p.remaining_time)
    (hlt : ∀ p ∈ l, p.remaining_time < U32) :
    remOf i (accounted l k)
        + ((l.take k).filter (fun p => p.id = i)).length
      = remOf i l := by
  unfold accounted remOf
  rw [List.filter_append, sumRem_append]
  have hcomm : ((l.take k).filterMap procStep).filter (fun p => p.id = i)
      = ((l.take k).filter (fun p => p.id = i)).filterMap procStep := by
    rw [List.filter_filterMap, List.filterMap_filter]
    refine List.filterMap_congr ?_
    intro p hp
    by_cases hz : decWrap p.remaining_time = 0
    · rw [procStep_none p hz]
      by_cases hpi : p.id = i
      · rw [if_pos (by simp [hpi])]
        rfl
      · rw [if_neg (by simp [hpi])]
        rfl
    · rw [procStep_some p hz]
      by_cases hpi : p.id = i
      · rw [if_pos (by simp [hpi])]
        show Option.filter _ _ = _
        unfold Option.filter
        simp [hpi]
      · rw [if_neg (by simp [hpi])]
        show Option.filter _ _ = _
        unfold Option.filter
        simp [hpi]
  rw [hcomm]
  have hsub : ∀ p ∈ (l.take k).filter (fun p => p.id = i), p ∈ l :=
    fun p hp => List.mem_of_mem_take (List.mem_of_mem_filter hp)
  have h1 := sumRem_filterMap_procStep
    ((l.take k).filter (fun p => p.id = i))
    (fun p hp => hpos p (hsub p hp)) (fun p hp => hlt p (hsub p hp))
  have h2 : sumRem ((l.take k).filter (fun p => p.id = i))
      + sumRem ((l.drop k).filter (fun p => p.id = i))
      = sumRem (l.filter (fun p => p.id = i)) := by
    rw [← sumRem_append, ← List.filter_append, List.take_append_drop]
  omega

theorem sumRem_toProc (arr : List Arrival) :
    sumRem (arr.map Arrival.toProc)
      = (arr.map (fun a => a.exec_time)).sum := by
  unfold sumRem
  rw [List.map_map]
  rfl

theorem remOf_toProc (i : Int) (arr : List Arrival) :
    remOf i (arr.map Arrival.toProc)
      = ((arr.filter (fun a => a.id = i)).map (fun a => a.exec_time)).sum := by
  induction arr with
  | nil => rfl
  | cons a t ih =>
    unfold remOf at ih ⊢
    rw [List.map_cons]
    by_cases h : a.id = i
    · rw [List.filter_cons_of_pos (by simp [Arrival.toProc, h]),
          List.filter_cons_of_pos (by simp [h])]
      rw [List.map_cons, List.sum_cons]
      have hsum : sumRem (Arrival.toProc a
          :: List.filter (fun p => decide (p.id = i)) (t.map Arrival.toProc))
          = a.exec_time
            + sumRem (List.filter (fun p => decide (p.id = i))
                (t.map Arrival.toProc)) := rfl
      rw [hsum, ih]
    · rw [List.filter_cons_of_neg (by simp [Arrival.toProc, h]),
          List.filter_cons_of_neg (by simp [h])]
      exact ih

theorem execOf_cons (i : Int) (g : Group) (rest : List Group) :
    execOf i (g :: rest)
      = ((g.arrivals.filter (fun a => a.id = i)).map
          (fun a => a.exec_time)).sum + execOf i rest := by
  unfold execOf
  rw [List.flatMap_cons, List.filter_append, List.map_append,
    List.sum_append]

theorem inputExec_cons (g : Group) (rest : List Group) :
    inputExec (g :: rest)
      = (g.arrivals.map (fun a => a.exec_time)).sum + inputExec rest := by
  unfold inputExec
  rw [List.map_cons, List.sum_cons]

theorem execOf_nil (i : Int) : execOf i [] = 0 := rfl

/-- Admission preserves the number of owed slot appearances of any id. -/
theorem expectedOf_admit (i : Int) (s : SimState) :
    expectedOf i (admitIn s) = expectedOf i s := by
  cases hr : s.readFlag with
  | false => rw [admit_notread s hr]
  | true =>
    cases hi : s.input with
    | nil =>
      rw [admit_nil s hr hi]
      unfold expectedOf
      have h1 : ({ s with readFlag := false } : SimState).readFlag = false :=
        rfl
      rw [h1, hr, hi, if_neg (by simp), if_pos rfl, execOf_nil]
    | cons g rest =>
      rw [admit_cons s g rest hr hi]
      unfold expectedOf
      have h1 : ({ s with
          input := rest
          time := g.time
          procs := s.procs ++ g.arrivals.map Arrival.toProc }
            : SimState).readFlag = s.readFlag := rfl
      rw [h1, hr, if_pos rfl, if_pos rfl, hi]
      have h2 : remOf i ({ s with
          input := rest
          time := g.time
          procs := s.procs ++ g.arrivals.map Arrival.toProc }
            : SimState).procs
          = remOf i s.procs + remOf i (g.arrivals.map Arrival.toProc) :=
        remOf_append i _ _
      have h3 : ({ s with
          input := rest
          time := g.time
          procs := s.procs ++ g.arrivals.map Arrival.toProc }
            : SimState).input = rest := rfl
      rw [h2, h3, remOf_toProc, execOf_cons]
      omega

theorem length_filter_id_le_one (t : List ProcData) (i : Int)
    (hnodup : (t.map (fun p => p.id)).Nodup) :
    (t.filter (fun p => p.id = i)).length ≤ 1 := by
  cases hF : t.filter (fun p => p.id = i) with
  | nil => simp
  | cons q F2 =>
    cases hF2 : F2 with
    | nil => simp
    | cons q2 F3 =>
      exfalso
      rw [hF2] at hF
      have hsub : (q :: q2 :: F3).Sublist t := by
        rw [← hF]
        exact List.filter_sublist t
      have hnodup2 : ((q :: q2 :: F3).map (fun p => p.id)).Nodup :=
        List.Nodup.sublist (hsub.map _) hnodup
      have hq : q.id = i := by
        have hmem : q ∈ t.filter (fun p => p.id = i) := by rw [hF]; simp
        have h5 := List.of_mem_filter hmem
        simpa using h5
      have hq2 : q2.id = i := by
        have hmem : q2 ∈ t.filter (fun p => p.id = i) := by rw [hF]; simp
        have h5 := List.of_mem_filter hmem
        simpa using h5
      rw [List.map_cons, List.map_cons, List.nodup_cons] at hnodup2
      exact hnodup2.1 (by rw [hq, ← hq2]; simp)

/-- The multiplicity of a nonnegative id in the updated slot vector is the
number of processes with that id among the first min(N, length). -/
theorem count_update (l : List ProcData) (cs : List Int) (i : Int)
    (hi : 0 ≤ i) (hnonneg : ∀ p ∈ l, 0 ≤ p.id) :
    (update_cpus_state l cs).count i
      = ((l.take (min cs.length l.length)).filter
          (fun p => p.id = i)).length := by
  rw [update_cpus_state_eq l cs hnonneg, List.count_append]
  have hrep : (List.replicate (cs.length - l.length) (-1 : Int)).count i
      = 0 := by
    rw [List.count_replicate]
    rw [if_neg (by simp; omega)]
  rw [hrep]
  have hperm := stableSort_perm intLt ((l.map (fun p => p.id)).take cs.length)
  rw [hperm.count_eq i, take_min_eq]
  rw [List.count_eq_countP, List.countP_map]
  rw [List.countP_eq_length_filter]
  have hfc : List.filter ((fun x => x == i) ∘ fun p => p.id)
      (l.take (min cs.length l.length))
      = List.filter (fun p => decide (p.id = i))
        (l.take (min cs.length l.length)) := by
    refine List.filter_congr ?_
    intro p hp
    show (p.id == i) = decide (p.id = i)
    by_cases h : p.id = i <;> simp [h]
  rw [hfc]
  omega

theorem occSlots_nil_of_sleeping (cs : List Int)
    (h : all_cpus_sleeping cs = true) : occSlots cs = [] := by
  unfold occSlots
  rw [List.filter_eq_nil_iff]
  intro a ha
  have := List.all_eq_true.mp h a ha
  simp at this ⊢
  exact this

theorem sleeping_replicate (m : Nat) :
    all_cpus_sleeping (List.replicate m (-1 : Int)) = true := by
  unfold all_cpus_sleeping
  rw [List.all_eq_true]
  intro a ha
  have := List.eq_of_mem_replicate ha
  simp [this]

theorem update_nil_sleeping (cs : List Int) :
    all_cpus_sleeping (update_cpus_state [] cs) = true := by
  rw [update_cpus_state_eq [] cs (by simp)]
  have h1 : ((([] : List ProcData).map (fun p => p.id)).take cs.length)
      = [] := by simp
  rw [h1]
  have h2 : stableSort intLt ([] : List Int) = [] := rfl
  rw [h2, List.nil_append]
  exact sleeping_replicate _

theorem stepList_nil_of_sleeping (method slice : Nat) (s : SimState)
    (hnonneg : ∀ p ∈ stepList method slice s, 0 ≤ p.id)
    (hN : 1 ≤ (admitIn s).cpus.length)
    (h : all_cpus_sleeping (stepCpus method slice s) = true) :
    stepList method slice s = [] := by
  have h0 := occSlots_nil_of_sleeping _ h
  have h1 := occSlots_update_perm (stepList method slice s)
    (admitIn s).cpus hnonneg
  rw [show stepCpus method slice s = update_cpus_state
    (stepList method slice s) (admitIn s).cpus from rfl] at h0
  rw [h0] at h1
  have h2 := h1.symm.eq_nil
  rcases List.take_eq_nil_iff.mp h2 with h3 | h3
  · omega
  · exact List.map_eq_nil_iff.mp h3

theorem stepList_nonneg (method slice : Nat) (s : SimState)
    (h : ∀ p ∈ (admitIn s).procs, 0 ≤ p.id) :
    ∀ p ∈ stepList method slice s, 0 ≤ p.id :=
  fun p hp => h p ((stepList_mem method slice s p).mp hp)

theorem stepList_rem_pos (method slice : Nat) (s : SimState)
    (h : ∀ p ∈ (admitIn s).procs, 1 ≤ p.remaining_time) :
    ∀ p ∈ stepList method slice s, 1 ≤ p.remaining_time :=
  fun p hp => h p ((stepList_mem method slice s p).mp hp)

theorem stepList_rem_lt (method slice : Nat) (s : SimState)
    (h : ∀ p ∈ (admitIn s).procs, p.remaining_time < U32) :
    ∀ p ∈ stepList method slice s, p.remaining_time < U32 :=
  fun p hp => h p ((stepList_mem method slice s p).mp hp)

/-- The state produced by one loop iteration satisfies the loop
invariant. -/
theorem step_GInv (method slice N : Nat) (s : SimState) (hN : 1 ≤ N)
    (hpinv : PInv N (admitIn s)) :
    GInv N { admitIn s with
      procs := accounted (stepList method slice s)
        (min (admitIn s).cpus.length (stepList method slice s).length)
      cpus := stepCpus method slice s
      time := ((admitIn s).time + 1) % U32 } := by
  have hLnodup := stepList_nodup method slice s hpinv.ids_nodup
  have hLnonneg := stepList_nonneg method slice s hpinv.ids_nonneg
  have hLpos := stepList_rem_pos method slice s hpinv.rem_pos
  have hLlt := stepList_rem_lt method slice s hpinv.rem_lt
  refine
    { cpus_len := ?_
      ids_nodup := ?_
      ids_nonneg := ?_
      rem_pos := ?_
      rem_lt := ?_
      input_wf := hpinv.input_wf
      fresh := ?_
      sleep_empty := ?_ }
  · show (stepCpus method slice s).length = N
    rw [show stepCpus method slice s = update_cpus_state
      (stepList method slice s) (admitIn s).cpus from rfl]
    rw [update_cpus_state_length]
    exact hpinv.cpus_len
  · show ((accounted (stepList method slice s) _).map (fun p => p.id)).Nodup
    exact List.Nodup.sublist (accounted_ids_sublist _ _) hLnodup
  · show ∀ q ∈ accounted (stepList method slice s) _, 0 ≤ q.id
    intro q hq
    rcases accounted_id_of_mem _ _ q hq with ⟨p, hp, hid⟩
    rw [hid]
    exact hLnonneg p hp
  · show ∀ q ∈ accounted (stepList method slice s) _, 1 ≤ q.remaining_time
    intro q hq
    exact (accounted_rem _ _ hLpos hLlt q hq).1
  · show ∀ q ∈ accounted (stepList method slice s) _, q.remaining_time < U32
    intro q hq
    exact (accounted_rem _ _ hLpos hLlt q hq).2
  · show ∀ q ∈ accounted (stepList method slice s) _,
      q.id ∉ inputIds (admitIn s).input
    intro q hq
    rcases accounted_id_of_mem _ _ q hq with ⟨p, hp, hid⟩
    rw [hid]
    exact hpinv.fresh p ((stepList_mem method slice s p).mp hp)
  · intro hsleep
    have hsleep2 : all_cpus_sleeping (stepCpus method slice s) = true :=
      hsleep
    have hN2 : 1 ≤ (admitIn s).cpus.length := by
      rw [hpinv.cpus_len]
      exact hN
    have hLnil := stepList_nil_of_sleeping method slice s hLnonneg hN2 hsleep2
    show accounted (stepList method slice s) _ = []
    rw [hLnil]
    unfold accounted
    rw [List.take_nil, List.drop_nil]
    rfl

theorem measureSim_eq (s : SimState) :
    measureSim s
      = (if s.readFlag = true
          then s.input.length + 1 + inputExec s.input else 0)
        + sumRem s.procs
        + (if simDone s = true then 0 else 1) := rfl

theorem sumRem_step (method slice : Nat) (s : SimState)
    (hpos : ∀ p ∈ (admitIn s).procs, 1 ≤ p.remaining_time)
    (hlt : ∀ p ∈ (admitIn s).procs, p.remaining_time < U32) :
    sumRem (accounted (stepList method slice s)
        (min (admitIn s).cpus.length (stepList method slice s).length))
      + min (admitIn s).cpus.length (stepList method slice s).length
      = sumRem (admitIn s).procs := by
  have h1 := sumRem_accounted (stepList method slice s)
    (min (admitIn s).cpus.length (stepList method slice s).length)
    (stepList_rem_pos method slice s hpos)
    (stepList_rem_lt method slice s hlt)
  rw [List.length_take] at h1
  have hperm : (stepList method slice s).Perm (admitIn s).procs :=
    reorderOf_perm method slice (admitIn s).procs (admitIn s).cpus
  rw [sumRem_perm _ _ hperm] at h1
  have h2 : min (min (admitIn s).cpus.length (stepList method slice s).length)
      (stepList method slice s).length
      = min (admitIn s).cpus.length (stepList method slice s).length := by
    omega
  rw [h2] at h1
  exact h1

/-- While the loop condition holds, every iteration strictly decreases the
termination measure. -/
theorem step_measure (method slice N : Nat) (s : SimState) (hN : 1 ≤ N)
    (hpinv : PInv N (admitIn s)) (hdone : simDone s = false) :
    measureSim { admitIn s with
      procs := accounted (stepList method slice s)
        (min (admitIn s).cpus.length (stepList method slice s).length)
      cpus := stepCpus method slice s
      time := ((admitIn s).time + 1) % U32 }
      < measureSim s := by
  have hsum := sumRem_step method slice s hpinv.rem_pos hpinv.rem_lt
  have hm2 : measureSim { admitIn s with
      procs := accounted (stepList method slice s)
        (min (admitIn s).cpus.length (stepList method slice s).length)
      cpus := stepCpus method slice s
      time := ((admitIn s).time + 1) % U32 }
      = (if (admitIn s).readFlag = true
          then (admitIn s).input.length + 1 + inputExec (admitIn s).input
          else 0)
        + sumRem (accounted (stepList method slice s)
            (min (admitIn s).cpus.length (stepList method slice s).length))
        + (if simDone { admitIn s with
              procs := accounted (stepList method slice s)
                (min (admitIn s).cpus.length (stepList method slice s).length)
              cpus := stepCpus method slice s
              time := ((admitIn s).time + 1) % U32 } = true
            then 0 else 1) := rfl
  have hm1 := measureSim_eq s
  rw [hdone] at hm1
  have hif1 : (if false = true then (0 : Nat) else 1) = 1 := rfl
  rw [hif1] at hm1
  cases hr : s.readFlag with
  | true =>
    rw [hr, if_pos rfl] at hm1
    cases hi : s.input with
    | nil =>
      have hadm := admit_nil s hr hi
      have hread2 : (admitIn s).readFlag = false := by rw [hadm]
      have hprocs2 : (admitIn s).procs = s.procs := by rw [hadm]
      rw [hread2] at hm2
      rw [if_neg (by simp)] at hm2
      rw [hprocs2] at hsum
      have hdp : (if simDone { admitIn s with
            procs := accounted (stepList method slice s)
              (min (admitIn s).cpus.length (stepList method slice s).length)
            cpus := stepCpus method slice s
            time := ((admitIn s).time + 1) % U32 } = true
          then 0 else 1) ≤ 1 := by
        split <;> omega
      rw [hi] at hm1
      have hie : inputExec ([] : List Group) = 0 := rfl
      rw [hie] at hm1
      omega
    | cons g rest =>
      have hadm := admit_cons s g rest hr hi
      have hread2 : (admitIn s).readFlag = true := by rw [hadm]; exact hr
      have hinp2 : (admitIn s).input = rest := by rw [hadm]
      have hprocs2 : (admitIn s).procs
          = s.procs ++ g.arrivals.map Arrival.toProc := by rw [hadm]
      rw [hread2, if_pos rfl, hinp2] at hm2
      rw [hprocs2, sumRem_append, sumRem_toProc] at hsum
      rw [hi, inputExec_cons] at hm1
      have hdp : (if simDone { admitIn s with
            procs := accounted (stepList method slice s)
              (min (admitIn s).cpus.length (stepList method slice s).length)
            cpus := stepCpus method slice s
            time := ((admitIn s).time + 1) % U32 } = true
          then 0 else 1) ≤ 1 := by
        split <;> omega
      have hlen : (g :: rest).length = rest.length + 1 := rfl
      rw [hlen] at hm1
      omega
  | false =>
    have hadm := admit_notread s hr
    have hread2 : (admitIn s).readFlag = false := by rw [hadm]; exact hr
    have hprocs2 : (admitIn s).procs = s.procs := by rw [hadm]
    rw [hr] at hm1
    rw [if_neg (by simp)] at hm1
    rw [hread2] at hm2
    rw [if_neg (by simp)] at hm2
    rw [hprocs2] at hsum
    by_cases hp : s.procs = []
    · have hLnil : stepList method slice s = [] := by
        have hperm : (stepList method slice s).Perm (admitIn s).procs :=
          reorderOf_perm method slice (admitIn s).procs (admitIn s).cpus
        rw [hprocs2, hp] at hperm
        exact hperm.eq_nil
      have hs2done : simDone { admitIn s with
          procs := accounted (stepList method slice s)
            (min (admitIn s).cpus.length (stepList method slice s).length)
          cpus := stepCpus method slice s
          time := ((admitIn s).time + 1) % U32 } = true := by
        show (!(admitIn s).readFlag
          && all_cpus_sleeping (stepCpus method slice s)) = true
        rw [hread2]
        rw [show stepCpus method slice s = update_cpus_state
          (stepList method slice s) (admitIn s).cpus from rfl, hLnil]
        rw [update_nil_sleeping]
        rfl
      rw [hs2done, if_pos rfl] at hm2
      have hsr : sumRem s.procs = 0 := by rw [hp]; rfl
      have hsr2 : sumRem (accounted (stepList method slice s)
          (min (admitIn s).cpus.length (stepList method slice s).length))
          = 0 := by
        rw [hLnil]
        have : accounted [] (min (admitIn s).cpus.length
            ([] : List ProcData).length) = [] := by
          unfold accounted
          rw [List.take_nil, List.drop_nil]
          rfl
        rw [this]
        rfl
      omega
    · have hlenL : (stepList method slice s).length = s.procs.length := by
        have hperm : (stepList method slice s).Perm (admitIn s).procs :=
          reorderOf_perm method slice (admitIn s).procs (admitIn s).cpus
        rw [hprocs2] at hperm
        exact hperm.length_eq
      have hplen : 1 ≤ s.procs.length := by
        cases hq : s.procs with
        | nil => exact absurd hq hp
        | cons a t => simp
      have hN2 : (admitIn s).cpus.length = N := hpinv.cpus_len
      have hk : 1 ≤ min (admitIn s).cpus.length
          (stepList method slice s).length := by
        rw [hlenL, hN2]
        omega
      have hdp : (if simDone { admitIn s with
            procs := accounted (stepList method slice s)
              (min (admitIn s).cpus.length (stepList method slice s).length)
            cpus := stepCpus method slice s
            time := ((admitIn s).time + 1) % U32 } = true
          then 0 else 1) ≤ 1 := by
        split <;> omega
      omega

/-- Each iteration hands every owed appearance of an id either to the
emitted slot vector or to the successor state, and an id occupies at most
one slot. -/
theorem step_counts (method slice N : Nat) (s : SimState)
    (hpinv : PInv N (admitIn s)) (i : Int) (hi : 0 ≤ i) :
    expectedOf i s
      = (stepCpus method slice s).count i
        + expectedOf i { admitIn s with
            procs := accounted (stepList method slice s)
              (min (admitIn s).cpus.length (stepList method slice s).length)
            cpus := stepCpus method slice s
            time := ((admitIn s).time + 1) % U32 }
    ∧ (stepCpus method slice s).count i ≤ 1 := by
  have hLnodup := stepList_nodup method slice s hpinv.ids_nodup
  have hLnonneg := stepList_nonneg method slice s hpinv.ids_nonneg
  have hLpos := stepList_rem_pos method slice s hpinv.rem_pos
  have hLlt := stepList_rem_lt method slice s hpinv.rem_lt
  have hcnt : (stepCpus method slice s).count i
      = (((stepList method slice s).take
          (min (admitIn s).cpus.length (stepList method slice s).length)).filter
          (fun p => p.id = i)).length := by
    rw [show stepCpus method slice s = update_cpus_state
      (stepList method slice s) (admitIn s).cpus from rfl]
    exact count_update (stepList method slice s) (admitIn s).cpus i hi hLnonneg
  have hrem := remOf_accounted i (stepList method slice s)
    (min (admitIn s).cpus.length (stepList method slice s).length) hLpos hLlt
  have hpermrem : remOf i (stepList method slice s)
      = remOf i (admitIn s).procs :=
    remOf_perm i _ _ (reorderOf_perm method slice (admitIn s).procs
      (admitIn s).cpus)
  have hexp2 : expectedOf i { admitIn s with
      procs := accounted (stepList method slice s)
        (min (admitIn s).cpus.length (stepList method slice s).length)
      cpus := stepCpus method slice s
      time := ((admitIn s).time + 1) % U32 }
      = remOf i (accounted (stepList method slice s)
          (min (admitIn s).cpus.length (stepList method slice s).length))
        + (if (admitIn s).readFlag = true
            then execOf i (admitIn s).input else 0) := rfl
  have hexpA : expectedOf i (admitIn s)
      = remOf i (admitIn s).procs
        + (if (admitIn s).readFlag = true
            then execOf i (admitIn s).input else 0) := rfl
  have hadm := expectedOf_admit i s
  have hle1 : (((stepList method slice s).take
      (min (admitIn s).cpus.length (stepList method slice s).length)).filter
      (fun p => p.id = i)).length ≤ 1 := by
    refine length_filter_id_le_one _ i ?_
    rw [List.map_take]
    exact List.Nodup.sublist (List.take_sublist _ _) hLnodup
  constructor
  · rw [hcnt, hexp2, ← hadm, hexpA]
    omega
  · rw [hcnt]
    exact hle1

/-- One loop iteration of a well-formed run: the step succeeds, preserves
the invariant, decreases the measure, and accounts one slot appearance per
owed tick. -/
theorem stepSpec (method slice N : Nat) (s : SimState)
    (hN : 1 ≤ N) (hm : method ≤ 6) (hinv : GInv N s) :
    ∃ s2 r, stepSim method slice s = some (s2, r)
      ∧ GInv N s2
      ∧ s2.cpus = r.slots
      ∧ r.slots.length = N
      ∧ s2.readFlag = (admitIn s).readFlag
      ∧ s2.input = (admitIn s).input
      ∧ (simDone s = false → measureSim s2 < measureSim s)
      ∧ (∀ i : Int, 0 ≤ i →
          expectedOf i s = r.slots.count i + expectedOf i s2)
      ∧ (∀ i : Int, 0 ≤ i → r.slots.count i ≤ 1)
      ∧ (∀ c ∈ r.slots, c = -1 ∨ 0 ≤ c) := by
  have hpinv := admit_pinv N s hinv.toPInv
  have hstep := stepSim_eq method slice s hm hpinv.ids_nodup hpinv.ids_nonneg
  refine ⟨_, _, hstep, step_GInv method slice N s hN hpinv, rfl, ?_, rfl,
    rfl, ?_, ?_, ?_, ?_⟩
  · show (stepCpus method slice s).length = N
    rw [show stepCpus method slice s = update_cpus_state
      (stepList method slice s) (admitIn s).cpus from rfl]
    rw [update_cpus_state_length]
    exact hpinv.cpus_len
  · exact fun hdone => step_measure method slice N s hN hpinv hdone
  · exact fun i hi => (step_counts method slice N s hpinv i hi).1
  · exact fun i hi => (step_counts method slice N s hpinv i hi).2
  · intro c hc
    have hLnonneg := stepList_nonneg method slice s hpinv.ids_nonneg
    have hc2 : c ∈ update_cpus_state (stepList method slice s)
        (admitIn s).cpus := hc
    by_cases hcn : c = -1
    · exact Or.inl hcn
    · refine Or.inr ?_
      have hc3 := update_mem (stepList method slice s) (admitIn s).cpus
        hLnonneg c hc2 hcn
      rcases List.mem_map.mp hc3 with ⟨p, hp, hpc⟩
      rw [← hpc]
      exact hLnonneg p hp

/-- Iterated loop states, ignoring emitted records. -/
def iterSim (method slice : Nat) : Nat → SimState → Option SimState
  | 0, s => some s
  | n + 1, s =>
    match stepSim method slice s with
    | none => none
    | some (s2, _) => iterSim method slice n s2

theorem simDone_false_measure_pos (s : SimState)
    (h : simDone s = false) : 1 ≤ measureSim s := by
  rw [measureSim_eq s, h]
  have hif : (if false = true then (0 : Nat) else 1) = 1 := rfl
  rw [hif]
  omega

/-- A well-formed run terminates: with fuel equal to the measure the loop
reaches a done state, emitting one record per iteration, and every owed
appearance of every id is realized in the emitted records. -/
theorem runSpec (method slice N : Nat) (hN : 1 ≤ N) (hm : method ≤ 6) :
    ∀ (n : Nat) (s : SimState), measureSim s ≤ n → GInv N s →
      ∃ sf recs, runSim method slice n s = some (sf, recs)
        ∧ simDone sf = true
        ∧ GInv N sf
        ∧ sf.procs = []
        ∧ (∀ i : Int, 0 ≤ i →
            expectedOf i s = (recs.map (fun r => r.slots.count i)).sum)
        ∧ (∀ r ∈ recs, r.slots.length = N
            ∧ (∀ i : Int, 0 ≤ i → r.slots.count i ≤ 1)
            ∧ (∀ c ∈ r.slots, c = -1 ∨ 0 ≤ c))
        ∧ ((recs = [] ∧ sf = s)
            ∨ (∃ rl, recs.getLast? = some rl ∧ rl.slots = sf.cpus)) := by
  intro n
  induction n with
  | zero =>
    intro s hmeas hinv
    have hdone : simDone s = true := by
      cases hd : simDone s with
      | false =>
        have := simDone_false_measure_pos s hd
        omega
      | true => rfl
    refine ⟨s, [], ?_, hdone, hinv, ?_, ?_, ?_, Or.inl ⟨rfl, rfl⟩⟩
    · unfold runSim
      rw [if_pos hdone]
    · have hsleep : all_cpus_sleeping s.cpus = true := by
        unfold simDone at hdone
        cases hq : all_cpus_sleeping s.cpus with
        | false => rw [hq] at hdone; simp at hdone
        | true => rfl
      exact hinv.sleep_empty hsleep
    · intro i hi
      have hread : s.readFlag = false := by
        unfold simDone at hdone
        cases hq : s.readFlag with
        | false => rfl
        | true => rw [hq] at hdone; simp at hdone
      have hprocs : s.procs = [] := by
        refine hinv.sleep_empty ?_
        unfold simDone at hdone
        cases hq : all_cpus_sleeping s.cpus with
        | false => rw [hq] at hdone; simp at hdone
        | true => rfl
      unfold expectedOf
      rw [hread, hprocs]
      have h1 : remOf i ([] : List ProcData) = 0 := rfl
      rw [h1, if_neg (by simp)]
      rfl
    · intro r hr
      simp at hr
  | succ n ih =>
    intro s hmeas hinv
    cases hd : simDone s with
    | true =>
      refine ⟨s, [], ?_, hd, hinv, ?_, ?_, ?_, Or.inl ⟨rfl, rfl⟩⟩
      · unfold runSim
        rw [if_pos hd]
      · have hsleep : all_cpus_sleeping s.cpus = true := by
          unfold simDone at hd
          cases hq : all_cpus_sleeping s.cpus with
          | false => rw [hq] at hd; simp at hd
          | true => rfl
        exact hinv.sleep_empty hsleep
      · intro i hi
        have hread : s.readFlag = false := by
          unfold simDone at hd
          cases hq : s.readFlag with
          | false => rfl
          | true => rw [hq] at hd; simp at hd
        have hprocs : s.procs = [] := by
          refine hinv.sleep_empty ?_
          unfold simDone at hd
          cases hq : all_cpus_sleeping s.cpus with
          | false => rw [hq] at hd; simp at hd
          | true => rfl
        unfold expectedOf
        rw [hread, hprocs]
        have h1 : remOf i ([] : List ProcData) = 0 := rfl
        rw [h1, if_neg (by simp)]
        rfl
      · intro r hr
        simp at hr
    | false =>
      rcases stepSpec method slice N s hN hm hinv with
        ⟨s2, r, hstep, hinv2, hcpur, hrlen, _, _, hmea, hcnt, hle1, hrange⟩
      have hmeas2 : measureSim s2 ≤ n := by
        have := hmea hd
        omega
      rcases ih s2 hmeas2 hinv2 with
        ⟨sf, recs2, hrun2, hdone2, hinvf, hprocsf, hcnt2, hshape2, hlast2⟩
      refine ⟨sf, r :: recs2, ?_, hdone2, hinvf, hprocsf, ?_, ?_, ?_⟩
      · unfold runSim
        rw [if_neg (by rw [hd]; simp), hstep]
        show (runSim method slice n s2).map (fun q => (q.1, r :: q.2))
          = some (sf, r :: recs2)
        rw [hrun2]
        rfl
      · intro i hi
        rw [List.map_cons, List.sum_cons, ← hcnt2 i hi]
        exact hcnt i hi
      · intro r2 hr2
        rcases List.mem_cons.mp hr2 with h2 | h2
        · rw [h2]
          exact ⟨hrlen, hle1, hrange⟩
        · exact hshape2 r2 h2
      · rcases hlast2 with ⟨hnil, hsf⟩ | ⟨rl, hrl, hrlslots⟩
        · refine Or.inr ⟨r, ?_, ?_⟩
          · rw [hnil]
            rfl
          · rw [hsf, ← hcpur]
        · refine Or.inr ⟨rl, ?_, hrlslots⟩
          rw [List.getLast?_cons]
          rcases recs2 with _ | ⟨r3, recs3⟩
          · simp at hrl
          · rw [← hrl]
            rfl

theorem initState_ginv (N : Nat) (input : List Group) (hwf : WFInput input) :
    GInv N (initState N input) :=
  { cpus_len := List.length_replicate N 0
    ids_nodup := List.nodup_nil
    ids_nonneg := by intro p hp; simp [initState] at hp
    rem_pos := by intro p hp; simp [initState] at hp
    rem_lt := by intro p hp; simp [initState] at hp
    input_wf := hwf
    fresh := by intro p hp; simp [initState] at hp
    sleep_empty := fun _ => rfl }

/-- The loop invariant holds at every reachable loop state. -/
theorem iterSim_ginv (method slice N : Nat) (input : List Group)
    (hN : 1 ≤ N) (hm : method ≤ 6) (hwf : WFInput input) :
    ∀ (n : Nat) (s : SimState),
      iterSim method slice n (initState N input) = some s → GInv N s := by
  have hgen : ∀ (n : Nat) (s0 s : SimState), GInv N s0 →
      iterSim method slice n s0 = some s → GInv N s := by
    intro n
    induction n with
    | zero =>
      intro s0 s h0 hit
      unfold iterSim at hit
      cases Option.some.inj hit
      exact h0
    | succ n ih =>
      intro s0 s h0 hit
      unfold iterSim at hit
      rcases hs : stepSim method slice s0 with _ | ⟨s2, r⟩
      · rw [hs] at hit
        exact Option.noConfusion hit
      · rw [hs] at hit
        rcases stepSpec method slice N s0 hN hm h0 with
          ⟨s2b, rb, hstep2, hinv2, _⟩
        rw [hs] at hstep2
        have heq := Option.some.inj hstep2
        injection heq with h1 h2
        rw [h1] at hit
        exact ih s2b s hinv2 hit
  intro n s hit
  exact hgen n (initState N input) s (initState_ginv N input hwf) hit

/-- Once the loop has reached the done state, extra fuel changes nothing:
no further records are emitted. -/
theorem runSim_mono (method slice : Nat) :
    ∀ (n : Nat) (s sf : SimState) (recs : List Record),
      runSim method slice n s = some (sf, recs) →
      ∀ fuel, n ≤ fuel → runSim method slice fuel s = some (sf, recs) := by
  intro n
  induction n with
  | zero =>
    intro s sf recs hrun fuel hfuel
    unfold runSim at hrun
    cases hd : simDone s with
    | false =>
      rw [hd] at hrun
      simp at hrun
    | true =>
      rw [hd] at hrun
      simp at hrun
      cases fuel with
      | zero =>
        unfold runSim
        rw [if_pos hd, hrun.1, hrun.2]
      | succ f =>
        unfold runSim
        rw [if_pos hd, hrun.1, hrun.2]
  | succ n ih =>
    intro s sf recs hrun fuel hfuel
    cases hd : simDone s with
    | true =>
      unfold runSim at hrun
      rw [if_pos hd] at hrun
      have h2 := Option.some.inj hrun
      cases fuel with
      | zero =>
        unfold runSim
        rw [if_pos hd, ← h2]
      | succ f =>
        unfold runSim
        rw [if_pos hd, ← h2]
    | false =>
      unfold runSim at hrun
      rw [if_neg (by rw [hd]; simp)] at hrun
      rcases hs : stepSim method slice s with _ | ⟨s2, r⟩
      · rw [hs] at hrun
        exact Option.noConfusion hrun
      · rw [hs] at hrun
        have hrun2 : (runSim method slice n s2).map (fun q => (q.1, r :: q.2))
            = some (sf, recs) := hrun
        cases fuel with
        | zero => omega
        | succ f =>
          have hf : n ≤ f := by omega
          unfold runSim
          rw [if_neg (by rw [hd]; simp), hs]
          show (runSim method slice f s2).map (fun q => (q.1, r :: q.2))
            = some (sf, recs)
          rcases hr2 : runSim method slice n s2 with _ | ⟨⟨sf2, recs2⟩⟩
          · rw [hr2] at hrun2
            exact Option.noConfusion hrun2
          · rw [hr2] at hrun2
            have h3 := ih s2 sf2 recs2 hr2 f hf
            rw [h3]
            exact hrun2

theorem length_filterMap_of_isSome (f : α → Option β) (l : List α)
    (h : ∀ x ∈ l, (f x).isSome = true) :
    (l.filterMap f).length = l.length := by
  induction l with
  | nil => rfl
  | cons x t ih =>
    have hx := h x (by simp)
    rcases hfx : f x with _ | b
    · rw [hfx] at hx
      simp at hx
    · rw [List.filterMap_cons_some hfx]
      have := ih (fun y hy => h y (by simp [hy]))
      simp [this]

/-- C1 counterexample: for a ready list holding the single process with id
minus three and two CPU slots, the slot comparator orders the idle
sentinel before the occupied slot, so the occupied slot is not first and
is not in ascending-ids-first form as the claim states for every ready
list. -/
theorem C1_counterexample :
    update_cpus_state [⟨-3, 0, 1, 1⟩] [0, 0] = [-1, -3]
    ∧ update_cpus_state [⟨-3, 0, 1, 1⟩] [0, 0] ≠ [-3, -1] := by
  constructor
  · rfl
  · decide

/-- C1 (amended to ready lists with nonnegative ids, the only ids that do
not collide with the idle sentinel ordering): the slot fill writes the
k-th process id into slot k and the idle sentinel into the rest; the
final stable sort puts the occupied ids first in ascending order with the
idle slots at the end; and the result depends only on the ready-list
order and the slot count. -/
theorem C1_slot_fill (l : List ProcData) (cs : List Int)
    (h : ∀ p ∈ l, 0 ≤ p.id) :
    fillSlots l cs
      = (l.map (fun p => p.id)).take cs.length
        ++ List.replicate (cs.length - l.length) (-1)
    ∧ (∃ occ, update_cpus_state l cs
        = occ ++ List.replicate (cs.length - l.length) (-1)
        ∧ occ.Perm ((l.map (fun p => p.id)).take cs.length)
        ∧ occ.Pairwise (fun a b => a ≤ b)
        ∧ ∀ c ∈ occ, 0 ≤ c)
    ∧ (∀ cs2 : List Int, cs2.length = cs.length →
        update_cpus_state l cs2 = update_cpus_state l cs) := by
  refine ⟨fillSlots_eq l cs, ?_, ?_⟩
  · refine ⟨stableSort intLt ((l.map (fun p => p.id)).take cs.length),
      update_cpus_state_eq l cs h, stableSort_perm _ _, ?_, ?_⟩
    · have hs := stableSort_sorted intLt intLt_asym intLt_trans
        ((l.map (fun p => p.id)).take cs.length)
      refine hs.imp ?_
      intro a b hab
      simp only [intLt, decide_eq_false_iff_not, Int.not_lt] at hab
      exact hab
    · intro c hc
      have hc2 := List.mem_of_mem_take ((stableSort_mem intLt _ c).mp hc)
      rcases List.mem_map.mp hc2 with ⟨p, hp, hpc⟩
      rw [← hpc]
      exact h p hp
  · intro cs2 hlen
    rw [update_cpus_state_eq l cs2 h, update_cpus_state_eq l cs h, hlen]

theorem C1_slot_fill_witness :
    (∀ p ∈ [(⟨7, 0, 2, 2⟩ : ProcData), ⟨2, 1, 1, 1⟩], 0 ≤ p.id)
    ∧ (fillSlots [⟨7, 0, 2, 2⟩, ⟨2, 1, 1, 1⟩] [0, 0, 0]
        = ([7, 2] : List Int).take 3 ++ List.replicate 1 (-1)
    ∧ (∃ occ, update_cpus_state [⟨7, 0, 2, 2⟩, ⟨2, 1, 1, 1⟩] [0, 0, 0]
        = occ ++ List.replicate 1 (-1)
        ∧ occ.Perm (([7, 2] : List Int).take 3)
        ∧ occ.Pairwise (fun a b => a ≤ b)
        ∧ ∀ c ∈ occ, 0 ≤ c)
    ∧ (∀ cs2 : List Int, cs2.length = 3 →
        update_cpus_state [⟨7, 0, 2, 2⟩, ⟨2, 1, 1, 1⟩] cs2
          = update_cpus_state [⟨7, 0, 2, 2⟩, ⟨2, 1, 1, 1⟩] [0, 0, 0])) :=
  ⟨by decide, C1_slot_fill [⟨7, 0, 2, 2⟩, ⟨2, 1, 1, 1⟩] [0, 0, 0] (by decide)⟩

/-- C2 counterexample: the arrival group declares timestamp five while the
simulated tick is zero; the loop does not fail, emits the record for the
offending tick (with the declared timestamp), and runs to completion. -/
theorem C2_counterexample :
    runSim 0 1 3 (initState 1 [⟨5, [⟨1, 0, 1⟩]⟩])
      = some (⟨false, [], [], [-1], 7⟩,
              [⟨5, [1]⟩, ⟨6, [-1]⟩])
    ∧ (5 : Nat) ≠ 0
    ∧ ([⟨5, [1]⟩, ⟨6, [-1]⟩] : List Record) ≠ [] := by
  refine ⟨by decide, by decide, by decide⟩

/-- C2 (amended): the loop performs no consistency check on the declared
timestamp of an admitted group: it unconditionally stores it into the
simulated time, emits the record of the tick with that timestamp, and
continues; this holds whether or not the timestamp equals the current
tick. -/
theorem C2_timestamp_adopted (method slice : Nat) (s : SimState)
    (g : Group) (rest : List Group) (s2 : SimState) (rec : Record)
    (hm : method ≤ 6) (hr : s.readFlag = true) (hi : s.input = g :: rest)
    (hstep : stepSim method slice s = some (s2, rec)) :
    rec.time = g.time
    ∧ s2.time = (g.time + 1) % U32
    ∧ s2.input = rest := by
  rw [stepSim_eq0 method slice s (by omega)] at hstep
  rcases Option.map_eq_some'.mp hstep with ⟨l3, hacc, hfa⟩
  injection hfa with h1 h2
  have htime : (admitIn s).time = g.time := by
    rw [admit_cons s g rest hr hi]
  have hinput : (admitIn s).input = rest := by
    rw [admit_cons s g rest hr hi]
  refine ⟨?_, ?_, ?_⟩
  · rw [← h2, htime]
  · rw [← h1, htime]
  · rw [← h1]
    exact hinput

theorem C2_timestamp_adopted_witness :
    (0 : Nat) ≤ 6
    ∧ (⟨true, [⟨5, [⟨1, 0, 1⟩]⟩], [], [0], 0⟩ : SimState).readFlag = true
    ∧ (⟨true, [⟨5, [⟨1, 0, 1⟩]⟩], [], [0], 0⟩ : SimState).input
        = ⟨5, [⟨1, 0, 1⟩]⟩ :: []
    ∧ stepSim 0 1 ⟨true, [⟨5, [⟨1, 0, 1⟩]⟩], [], [0], 0⟩
        = some (⟨true, [], [], [1], 6⟩, ⟨5, [1]⟩)
    ∧ ((⟨5, [1]⟩ : Record).time = 5
        ∧ (⟨true, [], [], [1], 6⟩ : SimState).time = (5 + 1) % U32
        ∧ (⟨true, [], [], [1], 6⟩ : SimState).input = []) := by
  refine ⟨by decide, by decide, by decide, ?_, ?_⟩
  · decide
  · exact C2_timestamp_adopted 0 1 ⟨true, [⟨5, [⟨1, 0, 1⟩]⟩], [], [0], 0⟩
      ⟨5, [⟨1, 0, 1⟩]⟩ [] ⟨true, [], [], [1], 6⟩ ⟨5, [1]⟩
      (by decide) (by decide) (by decide) (by decide)

/-- C7 counterexample: in a round-robin run, after the only process
completes, its id stays in the CPU vector; at the next tick rr is invoked
with that stale occupied slot id absent from the (empty) ready list, yet
no error occurs: the slot is silently skipped and the tick proceeds,
emitting its record. -/
theorem C7_counterexample :
    iterSim 3 1 1 (initState 1 [⟨0, [⟨1, 0, 1⟩]⟩])
      = some ⟨true, [], [], [1], 1⟩
    ∧ (1 : Int) ∈ occSlots [1]
    ∧ (1 : Int) ∉ (([] : List ProcData).map (fun p => p.id))
    ∧ stepSim 3 1 ⟨true, [], [], [1], 1⟩
        = some (⟨false, [], [], [-1], 2⟩, ⟨1, [-1]⟩) := by
  refine ⟨by decide, by decide, by decide, by decide⟩

/-- C7 (amended): when the rr loop is instructed to act on a slot id that
is absent from the ready list, the guard makes it skip that slot silently
and leave the list unchanged; the tick proceeds normally. -/
theorem C7_stale_slot_skipped (slice : Nat) (c : Int) (l : List ProcData)
    (h : c ∉ l.map (fun p => p.id)) :
    rrMove slice c l = l := by
  induction l with
  | nil => rfl
  | cons p t ih =>
    have hpc : ¬ p.id = c := by
      intro h2
      exact h (by rw [← h2]; simp)
    have ht : c ∉ t.map (fun p => p.id) := by
      intro h2
      exact h (by rw [List.map_cons]; exact List.mem_cons_of_mem _ h2)
    simp only [rrMove]
    rw [if_neg hpc, ih ht]

theorem C7_stale_slot_skipped_witness :
    (7 : Int) ∉ ([⟨1, 0, 2, 1⟩, ⟨2, 0, 2, 2⟩] : List ProcData).map
      (fun p => p.id)
    ∧ rrMove 1 7 [⟨1, 0, 2, 1⟩, ⟨2, 0, 2, 2⟩]
        = [⟨1, 0, 2, 1⟩, ⟨2, 0, 2, 2⟩] :=
  ⟨by decide, C7_stale_slot_skipped 1 7 [⟨1, 0, 2, 1⟩, ⟨2, 0, 2, 2⟩]
    (by decide)⟩

/-- C9: at every reachable loop state of a well-formed run, the slot
vector computed by the assign step has pairwise distinct non-idle ids,
each of them the id of a process of the (reordered) ready list, and under
this invariant the unguarded linear search of the accounting loop finds
every occupied slot id, so the accounting pass succeeds. -/
theorem C9_assign_invariant (method slice N : Nat) (input : List Group)
    (n : Nat) (s : SimState)
    (hN : 1 ≤ N) (hm : method ≤ 6) (hwf : WFInput input)
    (hreach : iterSim method slice n (initState N input) = some s) :
    (occSlots (stepCpus method slice s)).Nodup
    ∧ (∀ c ∈ occSlots (stepCpus method slice s),
        c ∈ (stepList method slice s).map (fun p => p.id))
    ∧ (account (stepCpus method slice s)
        (stepList method slice s)).isSome = true := by
  have hinv := iterSim_ginv method slice N input hN hm hwf n s hreach
  have hpinv := admit_pinv N s hinv.toPInv
  have hLnodup := stepList_nodup method slice s hpinv.ids_nodup
  have hLnonneg := stepList_nonneg method slice s hpinv.ids_nonneg
  refine ⟨?_, ?_, ?_⟩
  · exact occSlots_update_nodup (stepList method slice s) (admitIn s).cpus
      hLnonneg hLnodup
  · intro c hc
    have hperm := occSlots_update_perm (stepList method slice s)
      (admitIn s).cpus hLnonneg
    have hc2 := hperm.mem_iff.mp hc
    exact List.mem_of_mem_take hc2
  · rw [show stepCpus method slice s = update_cpus_state
      (stepList method slice s) (admitIn s).cpus from rfl]
    rw [account_update (stepList method slice s) (admitIn s).cpus
      hLnodup hLnonneg]
    rfl

theorem C9_assign_invariant_witness :
    (1 : Nat) ≤ 1 ∧ (0 : Nat) ≤ 6
    ∧ WFInput [⟨0, [⟨1, 0, 1⟩]⟩]
    ∧ iterSim 0 1 0 (initState 1 [⟨0, [⟨1, 0, 1⟩]⟩])
        = some (initState 1 [⟨0, [⟨1, 0, 1⟩]⟩])
    ∧ ((occSlots (stepCpus 0 1 (initState 1 [⟨0, [⟨1, 0, 1⟩]⟩]))).Nodup
    ∧ (∀ c ∈ occSlots (stepCpus 0 1 (initState 1 [⟨0, [⟨1, 0, 1⟩]⟩])),
        c ∈ (stepList 0 1 (initState 1 [⟨0, [⟨1, 0, 1⟩]⟩])).map
          (fun p => p.id))
    ∧ (account (stepCpus 0 1 (initState 1 [⟨0, [⟨1, 0, 1⟩]⟩]))
        (stepList 0 1 (initState 1 [⟨0, [⟨1, 0, 1⟩]⟩]))).isSome = true) := by
  refine ⟨by decide, by decide, ?_, by decide, ?_⟩
  · refine ⟨by decide, ?_⟩
    intro g hg a ha
    simp at hg
    rw [hg] at ha
    simp at ha
    rw [ha]
    refine ⟨by decide, by decide, by decide⟩
  · refine C9_assign_invariant 0 1 1 [⟨0, [⟨1, 0, 1⟩]⟩] 0
      (initState 1 [⟨0, [⟨1, 0, 1⟩]⟩]) (by decide) (by decide) ?_ (by decide)
    refine ⟨by decide, ?_⟩
    intro g hg a ha
    simp at hg
    rw [hg] at ha
    simp at ha
    rw [ha]
    refine ⟨by decide, by decide, by decide⟩

/-- C10: operator input initializes remaining_time to exec_time, so a
process admitted with execution time zero has remaining time zero; the
first time the accounting loop decrements it, the unsigned predecrement
wraps to 2^32 minus 1 instead of reaching zero, so the process is not
removed from the ready list at that tick. -/
theorem C10_zero_exec_wrap (a : Arrival) (l : List ProcData)
    (ha : a.exec_time = 0) (hp : Arrival.toProc a ∈ l)
    (hnodup : (l.map (fun q => q.id)).Nodup) :
    (Arrival.toProc a).remaining_time = 0
    ∧ decWrap (Arrival.toProc a).remaining_time = U32 - 1
    ∧ ∃ l2, updateProcs (Arrival.toProc a).id l = some l2
        ∧ { Arrival.toProc a with remaining_time := U32 - 1 } ∈ l2
        ∧ l2.length = l.length := by
  have hrem : (Arrival.toProc a).remaining_time = 0 := ha
  have hwrap : decWrap (Arrival.toProc a).remaining_time = U32 - 1 := by
    rw [hrem]
    exact decWrap_zero
  have hne : ¬ decWrap (Arrival.toProc a).remaining_time = 0 := by
    rw [hwrap]
    decide
  have hmem : (Arrival.toProc a).id ∈ l.map (fun q => q.id) :=
    List.mem_map.mpr ⟨Arrival.toProc a, hp, rfl⟩
  have hupd := updateProcs_eq (Arrival.toProc a).id l hmem hnodup
  refine ⟨hrem, hwrap, _, hupd, ?_, ?_⟩
  · refine List.mem_filterMap.mpr ⟨Arrival.toProc a, hp, ?_⟩
    rw [if_pos rfl, procStep_some _ hne, hwrap]
  · refine length_filterMap_of_isSome _ l ?_
    intro x hx
    by_cases hxc : x.id = (Arrival.toProc a).id
    · have hxa : x = Arrival.toProc a :=
        List.inj_on_of_nodup_map hnodup hx hp hxc
      rw [if_pos hxc, hxa, procStep_some _ hne]
      rfl
    · rw [if_neg hxc]
      rfl

theorem C10_zero_exec_wrap_witness :
    (⟨9, 2, 0⟩ : Arrival).exec_time = 0
    ∧ Arrival.toProc ⟨9, 2, 0⟩ ∈ [Arrival.toProc ⟨9, 2, 0⟩]
    ∧ (([Arrival.toProc ⟨9, 2, 0⟩] : List ProcData).map
        (fun q => q.id)).Nodup
    ∧ ((Arrival.toProc ⟨9, 2, 0⟩).remaining_time = 0
    ∧ decWrap (Arrival.toProc ⟨9, 2, 0⟩).remaining_time = U32 - 1
    ∧ ∃ l2, updateProcs (Arrival.toProc ⟨9, 2, 0⟩).id
          [Arrival.toProc ⟨9, 2, 0⟩] = some l2
        ∧ { Arrival.toProc ⟨9, 2, 0⟩ with remaining_time := U32 - 1 } ∈ l2
        ∧ l2.length = ([Arrival.toProc ⟨9, 2, 0⟩] : List ProcData).length) :=
  ⟨by decide, by decide, by decide,
   C10_zero_exec_wrap ⟨9, 2, 0⟩ [Arrival.toProc ⟨9, 2, 0⟩]
     (by decide) (by decide) (by decide)⟩

theorem expectedOf_init (i : Int) (N : Nat) (input : List Group) :
    expectedOf i (initState N input) = execOf i input := by
  unfold expectedOf initState
  have h1 : remOf i ([] : List ProcData) = 0 := rfl
  show remOf i [] + (if true = true then execOf i input else 0) = _
  rw [h1, if_pos rfl]
  omega

theorem inputIds_eq (inp : List Group) :
    inputIds inp
      = (inp.flatMap (fun g => g.arrivals)).map (fun a => a.id) := by
  unfold inputIds
  rw [List.map_flatMap]
  rfl

theorem length_filter_aid_le_one (t : List Arrival) (i : Int)
    (hnodup : (t.map (fun a => a.id)).Nodup) :
    (t.filter (fun a => a.id = i)).length ≤ 1 := by
  cases hF : t.filter (fun a => a.id = i) with
  | nil => simp
  | cons q F2 =>
    cases hF2 : F2 with
    | nil => simp
    | cons q2 F3 =>
      exfalso
      rw [hF2] at hF
      have hsub : (q :: q2 :: F3).Sublist t := by
        rw [← hF]
        exact List.filter_sublist t
      have hnodup2 : ((q :: q2 :: F3).map (fun a => a.id)).Nodup :=
        List.Nodup.sublist (hsub.map _) hnodup
      have hq : q.id = i := by
        have hmem : q ∈ t.filter (fun a => a.id = i) := by rw [hF]; simp
        have h5 := List.of_mem_filter hmem
        simpa using h5
      have hq2 : q2.id = i := by
        have hmem : q2 ∈ t.filter (fun a => a.id = i) := by rw [hF]; simp
        have h5 := List.of_mem_filter hmem
        simpa using h5
      rw [List.map_cons, List.map_cons, List.nodup_cons] at hnodup2
      exact hnodup2.1 (by rw [hq, ← hq2]; simp)

/-- With globally distinct ids, the total execution time attributed to the
id of one arrival is exactly that arrival's execution time. -/
theorem execOf_eq (inp : List Group) (hnodup : (inputIds inp).Nodup)
    (g : Group) (hg : g ∈ inp) (a : Arrival) (ha : a ∈ g.arrivals) :
    execOf a.id inp = a.exec_time := by
  have hmem : a ∈ inp.flatMap (fun g => g.arrivals) :=
    List.mem_flatMap.mpr ⟨g, hg, ha⟩
  rw [inputIds_eq] at hnodup
  have hle := length_filter_aid_le_one (inp.flatMap (fun g => g.arrivals))
    a.id hnodup
  have hamem : a ∈ (inp.flatMap (fun g => g.arrivals)).filter
      (fun x => x.id = a.id) :=
    List.mem_filter.mpr ⟨hmem, by simp⟩
  unfold execOf
  cases hF : (inp.flatMap (fun g => g.arrivals)).filter
      (fun x => x.id = a.id) with
  | nil =>
    rw [hF] at hamem
    simp at hamem
  | cons x F2 =>
    rw [hF] at hle hamem
    cases F2 with
    | nil =>
      have hxa : x = a := by
        rcases List.mem_cons.mp hamem with h2 | h2
        · exact h2.symm
        · simp at h2
      rw [hxa]
      simp
    | cons y F3 => simp at hle

theorem execOf_zero (inp : List Group) (i : Int)
    (h : i ∉ inputIds inp) : execOf i inp = 0 := by
  unfold execOf
  have hF : (inp.flatMap (fun g => g.arrivals)).filter
      (fun x => x.id = i) = [] := by
    rw [List.filter_eq_nil_iff]
    intro x hx hxi
    simp at hxi
    refine h ?_
    rw [inputIds_eq, ← hxi]
    exact List.mem_map.mpr ⟨x, hx, rfl⟩
  rw [hF]
  rfl

theorem sum_counts_eq_countP (i : Int) (recs : List Record)
    (h : ∀ r ∈ recs, r.slots.count i ≤ 1) :
    (recs.map (fun r => r.slots.count i)).sum
      = recs.countP (fun r => i ∈ r.slots) := by
  induction recs with
  | nil => rfl
  | cons r t ih =>
    have hr := h r (by simp)
    have iht := ih (fun r2 hr2 => h r2 (by simp [hr2]))
    rw [List.map_cons, List.sum_cons, iht]
    rcases Nat.lt_or_ge 0 (r.slots.count i) with hpos | hzero
    · have hmem : i ∈ r.slots := List.count_pos_iff.mp hpos
      rw [List.countP_cons_of_pos _ _ (by simp [hmem])]
      omega
    · have hcz : r.slots.count i = 0 := by omega
      have hnmem : i ∉ r.slots := by
        intro hmem
        have h6 : 0 < r.slots.count i := List.count_pos_iff.mpr hmem
        omega
      rw [List.countP_cons_of_neg _ _ (by simp [hnmem]), hcz]
      omega

theorem count_le_sum (i : Int) (r : Record) (recs : List Record)
    (hr : r ∈ recs) :
    r.slots.count i ≤ (recs.map (fun r2 => r2.slots.count i)).sum := by
  induction recs with
  | nil => simp at hr
  | cons r2 t ih =>
    rw [List.map_cons, List.sum_cons]
    rcases List.mem_cons.mp hr with h2 | h2
    · rw [h2]
      omega
    · have := ih h2
      omega

theorem sum_pos_exists (f : Record → Nat) (recs : List Record)
    (h : 0 < (recs.map f).sum) : ∃ r ∈ recs, 0 < f r := by
  induction recs with
  | nil => simp at h
  | cons r t ih =>
    rw [List.map_cons, List.sum_cons] at h
    rcases Nat.lt_or_ge 0 (f r) with hpos | hzero
    · exact ⟨r, by simp, hpos⟩
    · have h2 : 0 < (t.map f).sum := by omega
      rcases ih h2 with ⟨r2, hr2, hfr2⟩
      exact ⟨r2, by simp [hr2], hfr2⟩

/-- C5: over a complete well-formed run, every input process id appears in
exactly exec_time emitted records (one appearance per tick in which it
occupies a slot), and the ids occupying slots across all emitted records
are exactly the input ids. -/
theorem C5_conservation (method slice N : Nat) (input : List Group)
    (hN : 1 ≤ N) (hm : method ≤ 6) (hwf : WFInput input) :
    ∃ sf recs,
      runSim method slice (measureSim (initState N input))
        (initState N input) = some (sf, recs)
      ∧ simDone sf = true
      ∧ (∀ g ∈ input, ∀ a ∈ g.arrivals,
          recs.countP (fun r => a.id ∈ r.slots) = a.exec_time)
      ∧ (∀ i : Int, (∃ r ∈ recs, i ∈ r.slots ∧ i ≠ -1)
          ↔ i ∈ inputIds input) := by
  rcases runSpec method slice N hN hm (measureSim (initState N input))
      (initState N input) (Nat.le_refl _) (initState_ginv N input hwf) with
    ⟨sf, recs, hrun, hdone, hinvf, hprocsf, hcnt, hshape, hlast⟩
  refine ⟨sf, recs, hrun, hdone, ?_, ?_⟩
  · intro g hg a ha
    have hai := hwf.2 g hg a ha
    have hsum := hcnt a.id hai.1
    rw [expectedOf_init, execOf_eq input hwf.1 g hg a ha] at hsum
    rw [← sum_counts_eq_countP a.id recs
      (fun r hr => (hshape r hr).2.1 a.id hai.1)]
    exact hsum.symm
  · intro i
    constructor
    · rintro ⟨r, hr, himem, hine⟩
      have hrange := (hshape r hr).2.2 i himem
      have hi : 0 ≤ i := by
        rcases hrange with h2 | h2
        · exact absurd h2 hine
        · exact h2
      have hsum := hcnt i hi
      rw [expectedOf_init] at hsum
      by_contra hnotin
      rw [execOf_zero input i hnotin] at hsum
      have hpos : 0 < r.slots.count i := List.count_pos_iff.mpr himem
      have hle := count_le_sum i r recs hr
      omega
    · intro hin
      rw [inputIds_eq] at hin
      rcases List.mem_map.mp hin with ⟨a, hamem, hai⟩
      rcases List.mem_flatMap.mp hamem with ⟨g, hg, ha⟩
      subst hai
      have haw := hwf.2 g hg a ha
      have hsum := hcnt a.id haw.1
      rw [expectedOf_init, execOf_eq input hwf.1 g hg a ha] at hsum
      have hexec := haw.2.1
      have hpos : 0 < (recs.map (fun r => r.slots.count a.id)).sum := by
        omega
      rcases sum_pos_exists _ recs hpos with ⟨r, hr, hrpos⟩
      refine ⟨r, hr, List.count_pos_iff.mp hrpos, ?_⟩
      intro hineg
      have h0 := haw.1
      rw [hineg] at h0
      omega

theorem C5_conservation_witness :
    (1 : Nat) ≤ 1 ∧ (0 : Nat) ≤ 6 ∧ WFInput [⟨0, [⟨1, 0, 1⟩]⟩]
    ∧ ∃ sf recs,
      runSim 0 1 (measureSim (initState 1 [⟨0, [⟨1, 0, 1⟩]⟩]))
        (initState 1 [⟨0, [⟨1, 0, 1⟩]⟩]) = some (sf, recs)
      ∧ simDone sf = true
      ∧ (∀ g ∈ [(⟨0, [⟨1, 0, 1⟩]⟩ : Group)], ∀ a ∈ g.arrivals,
          recs.countP (fun r => a.id ∈ r.slots) = a.exec_time)
      ∧ (∀ i : Int, (∃ r ∈ recs, i ∈ r.slots ∧ i ≠ -1)
          ↔ i ∈ inputIds [⟨0, [⟨1, 0, 1⟩]⟩]) := by
  have hwf : WFInput [⟨0, [⟨1, 0, 1⟩]⟩] := by
    refine ⟨by decide, ?_⟩
    intro g hg a ha
    simp at hg
    rw [hg] at ha
    simp at ha
    rw [ha]
    refine ⟨by decide, by decide, by decide⟩
  exact ⟨by decide, by decide, hwf,
    C5_conservation 0 1 1 [⟨0, [⟨1, 0, 1⟩]⟩] (by decide) (by decide) hwf⟩

/-- C6 (counterexample): with FCFS, one CPU and a single process of
execution time one arriving at tick zero, the process completes at tick
zero, yet the loop emits a further record for tick one whose only slot is
idle; the last emitted tick is therefore not the tick at which the last
process completes. -/
theorem C6_counterexample :
    runSim 0 1 3 (initState 1 [⟨0, [⟨1, 0, 1⟩]⟩])
      = some (⟨false, [], [], [-1], 2⟩, [⟨0, [1]⟩, ⟨1, [-1]⟩])
    ∧ ([⟨0, [1]⟩, ⟨1, [-1]⟩] : List Record).getLast? = some ⟨1, [-1]⟩
    ∧ (∀ c ∈ ([-1] : List Int), c = -1) := by
  refine ⟨by decide, by decide, by decide⟩

/-- C6 (amended): for every finite well-formed input, a valid method
number and a positive CPU count, the simulation reaches DONE within a
computable finite fuel bound, giving more fuel changes nothing (DONE is
terminal, no further ticks), and the run emits at least one record whose
last element is an all-idle record: the loop always emits one trailing
tick on which every slot is idle, so the last emitted tick is one past
the tick at which the last process completes, not that tick itself. -/
theorem C6_termination_amended (method slice N : Nat) (input : List Group)
    (hN : 1 ≤ N) (hm : method ≤ 6) (hwf : WFInput input) :
    ∃ sf recs,
      runSim method slice (measureSim (initState N input))
        (initState N input) = some (sf, recs)
      ∧ simDone sf = true
      ∧ recs ≠ []
      ∧ (∃ rl, recs.getLast? = some rl ∧ rl.slots = List.replicate N (-1))
      ∧ (∀ fuel, measureSim (initState N input) ≤ fuel →
          runSim method slice fuel (initState N input) = some (sf, recs)) := by
  rcases runSpec method slice N hN hm (measureSim (initState N input))
      (initState N input) (Nat.le_refl _) (initState_ginv N input hwf) with
    ⟨sf, recs, hrun, hdone, hinvf, hprocsf, hcnt, hshape, hlast⟩
  have hnotinit : sf ≠ initState N input := by
    intro h
    rw [h] at hdone
    simp [simDone, initState] at hdone
  rcases hlast with ⟨hrecs, hsfs⟩ | ⟨rl, hlast2, hslots⟩
  · exact absurd hsfs hnotinit
  refine ⟨sf, recs, hrun, hdone, ?_, ⟨rl, hlast2, ?_⟩, ?_⟩
  · intro h
    rw [h] at hlast2
    simp at hlast2
  · have hsleep : all_cpus_sleeping sf.cpus = true := by
      unfold simDone at hdone
      exact (Bool.and_eq_true_iff.mp hdone).2
    have hall : ∀ b ∈ sf.cpus, b = -1 := by
      intro b hb
      have := List.all_eq_true.mp hsleep b hb
      exact of_decide_eq_true this
    rw [hslots]
    exact List.eq_replicate_iff.mpr ⟨hinvf.cpus_len, hall⟩
  · intro fuel hfuel
    exact runSim_mono method slice _ _ sf recs hrun fuel hfuel

theorem C6_termination_amended_witness :
    (1 : Nat) ≤ 1 ∧ (2 : Nat) ≤ 6 ∧ WFInput [⟨0, [⟨3, 1, 2⟩]⟩]
    ∧ ∃ sf recs,
      runSim 2 1 (measureSim (initState 1 [⟨0, [⟨3, 1, 2⟩]⟩]))
        (initState 1 [⟨0, [⟨3, 1, 2⟩]⟩]) = some (sf, recs)
      ∧ simDone sf = true
      ∧ recs ≠ []
      ∧ (∃ rl, recs.getLast? = some rl ∧ rl.slots = List.replicate 1 (-1))
      ∧ (∀ fuel, measureSim (initState 1 [⟨0, [⟨3, 1, 2⟩]⟩]) ≤ fuel →
          runSim 2 1 fuel (initState 1 [⟨0, [⟨3, 1, 2⟩]⟩])
            = some (sf, recs)) := by
  have hwf : WFInput [⟨0, [⟨3, 1, 2⟩]⟩] := by
    refine ⟨by decide, ?_⟩
    intro g hg a ha
    simp at hg
    rw [hg] at ha
    simp at ha
    rw [ha]
    refine ⟨by decide, by decide, by decide⟩
  exact ⟨by decide, by decide, hwf,
    C6_termination_amended 2 1 1 [⟨0, [⟨3, 1, 2⟩]⟩] (by decide) (by decide) hwf⟩

theorem pairwise_lex_of {α : Type _} (k1 : α → Int) (k2 : α → Nat)
    (l : List α) :
    l.Pairwise (fun x y => k1 x ≤ k1 y) →
    (∀ v : Int, (l.filter (fun x => k1 x = v)).Pairwise
        (fun x y => k2 x ≤ k2 y)) →
    l.Pairwise (fun x y =>
      k1 x < k1 y ∨ (k1 x = k1 y ∧ k2 x ≤ k2 y)) := by
  induction l with
  | nil =>
    intro _ _
    simp
  | cons a t ih =>
    intro h1 h2
    rcases List.pairwise_cons.mp h1 with ⟨ha1, ht1⟩
    have ht2 : ∀ v : Int, (t.filter (fun x => k1 x = v)).Pairwise
        (fun x y => k2 x ≤ k2 y) := by
      intro v
      have hv := h2 v
      rw [List.filter_cons] at hv
      by_cases hav : k1 a = v
      · rw [if_pos (by simp [hav])] at hv
        exact (List.pairwise_cons.mp hv).2
      · rwa [if_neg (by simp [hav])] at hv
    refine List.pairwise_cons.mpr ⟨?_, ih ht1 ht2⟩
    intro b hb
    rcases lt_or_eq_of_le (ha1 b hb) with hlt | heq
    · exact Or.inl hlt
    · refine Or.inr ⟨heq, ?_⟩
      have hfa := h2 (k1 a)
      rw [List.filter_cons, if_pos (by simp)] at hfa
      have hbf : b ∈ t.filter (fun x => k1 x = k1 a) :=
        List.mem_filter.mpr ⟨hb, by simp [heq]⟩
      exact (List.pairwise_cons.mp hfa).1 b hbf

theorem compare_priority_asym :
    ∀ a b : ProcData, compare_priority a b = true →
      compare_priority b a = false := by
  intro a b h
  simp [compare_priority] at h ⊢
  omega

theorem compare_priority_trans :
    ∀ a b c : ProcData, compare_priority a b = true →
      compare_priority c b = false → compare_priority a c = true := by
  intro a b c h1 h2
  simp [compare_priority] at h1 h2 ⊢
  omega

theorem compare_remaining_asym :
    ∀ a b : ProcData, compare_remaining_time a b = true →
      compare_remaining_time b a = false := by
  intro a b h
  simp [compare_remaining_time] at h ⊢
  omega

theorem compare_remaining_trans :
    ∀ a b c : ProcData, compare_remaining_time a b = true →
      compare_remaining_time c b = false →
      compare_remaining_time a c = true := by
  intro a b c h1 h2
  simp [compare_remaining_time] at h1 h2 ⊢
  omega

theorem lexPrioRem_asym :
    ∀ a b : ProcData, lexPrioRem a b = true → lexPrioRem b a = false := by
  intro a b h
  simp [lexPrioRem] at h ⊢
  omega

theorem lexPrioRem_trans :
    ∀ a b c : ProcData, lexPrioRem a b = true →
      lexPrioRem c b = false → lexPrioRem a c = true := by
  intro a b c h1 h2
  simp [lexPrioRem] at h1 h2 ⊢
  omega

/-- C8: the reordering of prio_srtf — a stable sort by remaining time
followed by a stable sort by priority — is exactly the single stable sort
by the strict lexicographic comparator on (priority, remaining time):
priority dominates, remaining time breaks priority ties, and the original
order breaks full ties. -/
theorem C8_prio_srtf_lex (l : List ProcData) :
    prioSrtfOrder l = stableSort lexPrioRem l := by
  refine eq_of_sorted_filter prioRemKey lexKeyLE
      (fun v => Or.inr ⟨rfl, Nat.le_refl _⟩)
      (fun u v h1 h2 => by
        cases u
        cases v
        simp [lexKeyLE] at h1 h2 ⊢
        omega)
      (prioSrtfOrder l) (stableSort lexPrioRem l) ?_ ?_ ?_
  · have h1 : (prioSrtfOrder l).Pairwise
        (fun x y => x.priority ≤ y.priority) :=
      (stableSort_sorted compare_priority compare_priority_asym
          compare_priority_trans
          (stableSort compare_remaining_time l)).imp
        (fun h => by
          simp [compare_priority] at h
          omega)
    have h2 : ∀ v : Int,
        ((prioSrtfOrder l).filter (fun x => x.priority = v)).Pairwise
          (fun x y => x.remaining_time ≤ y.remaining_time) := by
      intro v
      have hf1 : (prioSrtfOrder l).filter (fun x => x.priority = v)
          = (stableSort compare_remaining_time l).filter
              (fun x => x.priority = v) :=
        stableSort_filter compare_priority _ compare_priority_asym
          compare_priority_trans
          (fun a b ha hb => by
            simp at ha hb
            simp [compare_priority, ha, hb])
          (stableSort compare_remaining_time l)
      rw [hf1]
      exact ((stableSort_sorted compare_remaining_time
          compare_remaining_asym compare_remaining_trans l).filter _).imp
        (fun h => by
          simp [compare_remaining_time] at h
          omega)
    exact (pairwise_lex_of (fun p => p.priority)
        (fun p => p.remaining_time) (prioSrtfOrder l) h1 h2).imp
      (fun h => h)
  · exact (stableSort_sorted lexPrioRem lexPrioRem_asym lexPrioRem_trans
        l).imp
      (fun h => by
        simp [lexPrioRem] at h
        simp [lexKeyLE, prioRemKey]
        omega)
  · intro v
    obtain ⟨pv, rv⟩ := v
    have hclassP : ∀ a b : ProcData,
        decide (prioRemKey a = (pv, rv)) = true →
        decide (prioRemKey b = (pv, rv)) = true →
        compare_priority a b = false := by
      intro a b ha hb
      simp [prioRemKey] at ha hb
      simp [compare_priority, ha.1, hb.1]
    have hclassR : ∀ a b : ProcData,
        decide (prioRemKey a = (pv, rv)) = true →
        decide (prioRemKey b = (pv, rv)) = true →
        compare_remaining_time a b = false := by
      intro a b ha hb
      simp [prioRemKey] at ha hb
      simp [compare_remaining_time, ha.2, hb.2]
    have hclassL : ∀ a b : ProcData,
        decide (prioRemKey a = (pv, rv)) = true →
        decide (prioRemKey b = (pv, rv)) = true →
        lexPrioRem a b = false := by
      intro a b ha hb
      simp [prioRemKey] at ha hb
      simp [lexPrioRem, ha.1, ha.2, hb.1, hb.2]
    have hs1 : (prioSrtfOrder l).filter (fun x => prioRemKey x = (pv, rv))
        = (stableSort compare_remaining_time l).filter
            (fun x => prioRemKey x = (pv, rv)) :=
      stableSort_filter compare_priority _ compare_priority_asym
        compare_priority_trans hclassP (stableSort compare_remaining_time l)
    have hs2 : (stableSort compare_remaining_time l).filter
          (fun x => prioRemKey x = (pv, rv))
        = l.filter (fun x => prioRemKey x = (pv, rv)) :=
      stableSort_filter compare_remaining_time _ compare_remaining_asym
        compare_remaining_trans hclassR l
    have ht1 : (stableSort lexPrioRem l).filter
          (fun x => prioRemKey x = (pv, rv))
        = l.filter (fun x => prioRemKey x = (pv, rv)) :=
      stableSort_filter lexPrioRem _ lexPrioRem_asym lexPrioRem_trans
        hclassL l
    rw [hs1, hs2, ht1]

/-- C4 (counterexample): the slot loop of rr breaks at the first idle
slot instead of skipping it, so process 5, which occupies the second
slot and whose executed time (one) is a positive multiple of the slice
(one), is not moved to the back: the list is returned unchanged, not
rotated. -/
theorem C4_counterexample :
    rrOrder 1 [⟨5, 0, 2, 1⟩, ⟨7, 0, 2, 2⟩] [-1, 5]
      = [⟨5, 0, 2, 1⟩, ⟨7, 0, 2, 2⟩]
    ∧ (5 : Int) ∈ ([-1, 5] : List Int)
    ∧ 0 < executedTime ⟨5, 0, 2, 1⟩
    ∧ executedTime ⟨5, 0, 2, 1⟩ % 1 = 0
    ∧ ([⟨5, 0, 2, 1⟩, ⟨7, 0, 2, 2⟩] : List ProcData)
        ≠ [⟨7, 0, 2, 2⟩, ⟨5, 0, 2, 1⟩] := by
  refine ⟨by decide, by decide, by decide, by decide, by decide⟩

/-- C4 (amended): rr examines only the slots before the first idle slot
(the loop breaks at -1), applying the per-slot rule to each examined slot
id c in turn.  The per-slot rule, characterized here for a ready list
with pairwise distinct ids: if no process has id c the list is unchanged;
if process p has id c, then p is moved to the back exactly when its
executed time is a positive multiple of the slice, leaving the relative
order of all other processes unchanged, and otherwise the list is
unchanged.  A process occupying a slot at or after the first idle slot is
never examined, so the claimed move rule does not apply to it. -/
theorem C4_rr_move_amended (slice : Nat) (c : Int) (l : List ProcData)
    (hnd : (l.map (fun p => p.id)).Nodup) :
    ((∀ p ∈ l, p.id ≠ c) → rrMove slice c l = l)
    ∧ (∀ p ∈ l, p.id = c →
        rrMove slice c l =
          if 0 < executedTime p ∧ executedTime p % slice = 0
          then l.filter (fun q => q.id ≠ c) ++ [p]
          else l) := by
  induction l with
  | nil =>
    refine ⟨fun _ => rfl, ?_⟩
    intro p hp
    simp at hp
  | cons a t ih =>
    rw [List.map_cons, List.nodup_cons] at hnd
    obtain ⟨hna, hndt⟩ := hnd
    have iht := ih hndt
    constructor
    · intro h
      have ha : a.id ≠ c := h a (List.mem_cons_self a t)
      simp only [rrMove]
      rw [if_neg ha, iht.1 (fun p hp => h p (List.mem_cons_of_mem a hp))]
    · intro p hp hpc
      rcases List.mem_cons.mp hp with hpa | hpt
      · subst hpa
        have hfa : (p :: t).filter (fun q => decide (q.id ≠ c))
            = t.filter (fun q => decide (q.id ≠ c)) := by
          rw [List.filter_cons, if_neg (by simp [hpc])]
        have hft : t.filter (fun q => decide (q.id ≠ c)) = t := by
          apply List.filter_eq_self.mpr
          intro q hq
          simp
          intro hqc
          rw [← hpc] at hqc
          exact hna (List.mem_map.mpr ⟨q, hq, hqc⟩)
        simp only [rrMove]
        rw [if_pos hpc]
        by_cases hcond : 0 < executedTime p ∧ executedTime p % slice = 0
        · rw [if_pos hcond, hfa, hft, if_pos hcond]
        · rw [if_neg hcond, if_neg hcond]
      · have hpid : p.id ∈ t.map (fun p => p.id) :=
          List.mem_map.mpr ⟨p, hpt, rfl⟩
        have ha : a.id ≠ c := by
          intro h
          rw [← hpc] at h
          rw [h] at hna
          exact hna hpid
        simp only [rrMove]
        rw [if_neg ha, iht.2 p hpt hpc, List.filter_cons,
          if_pos (decide_eq_true ha)]
        by_cases hcond : 0 < executedTime p ∧ executedTime p % slice = 0
        · rw [if_pos hcond, if_pos hcond, List.cons_append]
        · rw [if_neg hcond, if_neg hcond]

theorem C4_rr_move_amended_witness :
    ((([⟨5, 0, 2, 1⟩, ⟨7, 0, 2, 2⟩] : List ProcData).map
        (fun p => p.id)).Nodup)
    ∧ (((∀ p ∈ ([⟨5, 0, 2, 1⟩, ⟨7, 0, 2, 2⟩] : List ProcData),
          p.id ≠ 5) →
        rrMove 1 5 [⟨5, 0, 2, 1⟩, ⟨7, 0, 2, 2⟩]
          = [⟨5, 0, 2, 1⟩, ⟨7, 0, 2, 2⟩])
    ∧ (∀ p ∈ ([⟨5, 0, 2, 1⟩, ⟨7, 0, 2, 2⟩] : List ProcData),
        p.id = 5 →
        rrMove 1 5 [⟨5, 0, 2, 1⟩, ⟨7, 0, 2, 2⟩] =
          if 0 < executedTime p ∧ executedTime p % 1 = 0
          then ([⟨5, 0, 2, 1⟩, ⟨7, 0, 2, 2⟩] : List ProcData).filter
              (fun q => q.id ≠ 5) ++ [p]
          else [⟨5, 0, 2, 1⟩, ⟨7, 0, 2, 2⟩])) :=
  ⟨by decide,
    C4_rr_move_amended 1 5 [⟨5, 0, 2, 1⟩, ⟨7, 0, 2, 2⟩] (by decide)⟩

theorem admit_cpus (s : SimState) : (admitIn s).cpus = s.cpus := by
  cases hr : s.readFlag with
  | false => rw [admit_notread s hr]
  | true =>
    cases hi : s.input with
    | nil => rw [admit_nil s hr hi]
    | cons g rest => rw [admit_cons s g rest hr hi]

theorem admit_procs_suffix (s : SimState) :
    ∃ new : List ProcData, (admitIn s).procs = s.procs ++ new
      ∧ ∀ q ∈ new, q.id ∈ inputIds s.input := by
  cases hr : s.readFlag with
  | false =>
    refine ⟨[], ?_, by simp⟩
    rw [admit_notread s hr, List.append_nil]
  | true =>
    cases hi : s.input with
    | nil =>
      refine ⟨[], ?_, by simp⟩
      rw [admit_nil s hr hi, List.append_nil]
    | cons g rest =>
      refine ⟨g.arrivals.map Arrival.toProc, ?_, ?_⟩
      · rw [admit_cons s g rest hr hi]
      · intro q hq
        rcases List.mem_map.mp hq with ⟨a, ha, hq2⟩
        rw [inputIds_cons]
        refine List.mem_append.mpr (Or.inl ?_)
        rw [← hq2]
        exact List.mem_map.mpr ⟨a, ha, rfl⟩

theorem admit_input_sub (s : SimState) (x : Int)
    (hx : x ∈ inputIds (admitIn s).input) : x ∈ inputIds s.input := by
  cases hr : s.readFlag with
  | false =>
    rw [admit_notread s hr] at hx
    exact hx
  | true =>
    cases hi : s.input with
    | nil =>
      rw [admit_nil s hr hi] at hx
      rw [hi] at hx
      exact hx
    | cons g rest =>
      rw [admit_cons s g rest hr hi] at hx
      rw [inputIds_cons]
      exact List.mem_append.mpr (Or.inr hx)

theorem countP_id_eq (l : List ProcData)
    (hnodup : (l.map (fun p => p.id)).Nodup) (c : Int) :
    l.countP (fun p => p.id = c)
      = if c ∈ l.map (fun p => p.id) then 1 else 0 := by
  induction l with
  | nil => simp
  | cons a t ih =>
    rw [List.map_cons, List.nodup_cons] at hnodup
    obtain ⟨hna, hnt⟩ := hnodup
    rw [List.countP_cons, ih hnt, List.map_cons]
    by_cases hac : a.id = c
    · have hct : c ∉ t.map (fun p => p.id) := by
        rw [← hac]
        exact hna
      rw [if_neg hct, if_pos (List.mem_cons.mpr (Or.inl hac.symm))]
      simp [hac]
    · by_cases hct : c ∈ t.map (fun p => p.id)
      · rw [if_pos hct, if_pos (List.mem_cons.mpr (Or.inr hct))]
        simp [hac]
      · have hcc : c ∉ a.id :: t.map (fun p => p.id) := by
          intro h
          rcases List.mem_cons.mp h with h2 | h2
          · exact hac h2.symm
          · exact hct h2
        rw [if_neg hct, if_neg hcc]
        simp [hac]

theorem skipCountGo_formula (l : List ProcData)
    (hnodup : (l.map (fun p => p.id)).Nodup) :
    ∀ (C : List Int) (acc : Nat), (-1 : Int) ∉ C → acc ≤ l.length →
      skipCountGo l acc C
        = min (acc + (C.filter (fun c => c ∈ l.map (fun p => p.id))).length)
            l.length := by
  intro C
  induction C with
  | nil =>
    intro acc _ hacc
    show acc = _
    simp
    omega
  | cons c rest ih =>
    intro acc hnc hacc
    have hcne : c ≠ -1 := by
      intro h
      rw [← h] at hnc
      exact hnc (List.mem_cons_self c rest)
    have hnrest : (-1 : Int) ∉ rest := fun h => hnc (List.mem_cons_of_mem c h)
    rw [show skipCountGo l acc (c :: rest)
        = if acc = l.length ∨ c = -1 then acc
          else skipCountGo l (acc + l.countP (fun p => p.id = c)) rest
        from rfl]
    by_cases hlen : acc = l.length
    · rw [if_pos (Or.inl hlen)]
      omega
    · rw [if_neg (by simp [hlen, hcne]), countP_id_eq l hnodup c]
      by_cases hcl : c ∈ l.map (fun p => p.id)
      · rw [if_pos hcl, ih (acc + 1) hnrest (by omega)]
        rw [List.filter_cons, if_pos (by simp [hcl])]
        simp only [List.length_cons]
        omega
      · rw [if_neg hcl, Nat.add_zero, ih acc hnrest hacc]
        rw [List.filter_cons, if_neg (by simp [hcl])]

theorem skipCountGo_append_idle (l : List ProcData) :
    ∀ (C : List Int) (acc m : Nat), (-1 : Int) ∉ C →
      skipCountGo l acc (C ++ List.replicate m (-1))
        = skipCountGo l acc C := by
  intro C
  induction C with
  | nil =>
    intro acc m _
    cases m with
    | zero => rfl
    | succ m2 =>
      rw [show ([] : List Int) ++ List.replicate (m2 + 1) (-1)
          = (-1) :: List.replicate m2 (-1) from by simp [List.replicate_succ]]
      rw [show skipCountGo l acc ((-1 : Int) :: List.replicate m2 (-1))
          = if acc = l.length ∨ (-1 : Int) = -1 then acc
            else skipCountGo l (acc + l.countP (fun p => p.id = -1))
              (List.replicate m2 (-1)) from rfl]
      rw [if_pos (Or.inr rfl)]
      rfl
  | cons c rest ih =>
    intro acc m hnc
    have hcne : c ≠ -1 := by
      intro h
      rw [← h] at hnc
      exact hnc (List.mem_cons_self c rest)
    have hnrest : (-1 : Int) ∉ rest := fun h => hnc (List.mem_cons_of_mem c h)
    rw [show (c :: rest) ++ List.replicate m (-1)
        = c :: (rest ++ List.replicate m (-1)) from rfl]
    rw [show skipCountGo l acc (c :: (rest ++ List.replicate m (-1)))
        = if acc = l.length ∨ c = -1 then acc
          else skipCountGo l (acc + l.countP (fun p => p.id = c))
            (rest ++ List.replicate m (-1)) from rfl]
    rw [show skipCountGo l acc (c :: rest)
        = if acc = l.length ∨ c = -1 then acc
          else skipCountGo l (acc + l.countP (fun p => p.id = c)) rest
        from rfl]
    by_cases hlen : acc = l.length
    · rw [if_pos (Or.inl hlen), if_pos (Or.inl hlen)]
    · rw [if_neg (by simp [hlen, hcne]), if_neg (by simp [hlen, hcne]),
        ih _ m hnrest]

theorem filter_mem_sublist_eq {α : Type _} [DecidableEq α] :
    ∀ (A B : List α), B.Sublist A → A.Nodup →
      A.filter (fun x => x ∈ B) = B := by
  intro A B hB
  induction hB with
  | slnil =>
    intro _
    rfl
  | cons a h ih =>
    intro hnd
    rw [List.nodup_cons] at hnd
    rw [List.filter_cons]
    rename_i B2 A2
    have hna : a ∉ B2 := fun hmem => hnd.1 (h.subset hmem)
    rw [if_neg (by simp [hna])]
    exact ih hnd.2
  | cons₂ a h ih =>
    intro hnd
    rw [List.nodup_cons] at hnd
    rw [List.filter_cons, if_pos (by simp)]
    rename_i B2 A2
    have hcong : ∀ x ∈ A2, (decide (x ∈ a :: B2)) = (decide (x ∈ B2)) := by
      intro x hx
      have hxa : x ≠ a := by
        intro h2
        exact hnd.1 (by rw [← h2]; exact hx)
      simp [List.mem_cons, hxa]
    rw [List.filter_congr hcong, ih hnd.2]

/-- The shape of the loop state after at least one iteration: the CPU
vector and the process list are both images of the reordered list of the
previous iteration; before the first iteration the CPU vector is the
zero-initialized one. -/
def SlotShape (N : Nat) (s : SimState) : Prop :=
  (s.procs = [] ∧ s.cpus = List.replicate N 0)
  ∨ ∃ M : List ProcData,
      (M.map (fun p => p.id)).Nodup
      ∧ (∀ p ∈ M, 0 ≤ p.id)
      ∧ (∀ p ∈ M, p.id ∉ inputIds s.input)
      ∧ s.cpus = stableSort intLt ((M.map (fun p => p.id)).take N)
          ++ List.replicate (N - M.length) (-1)
      ∧ s.procs = accounted M (min N M.length)

theorem step_shape (method slice N : Nat) (s : SimState)
    (hpinv : PInv N (admitIn s)) :
    SlotShape N
      { admitIn s with
          procs := accounted (stepList method slice s)
            (min (admitIn s).cpus.length (stepList method slice s).length)
          cpus := stepCpus method slice s
          time := ((admitIn s).time + 1) % U32 } := by
  refine Or.inr ⟨stepList method slice s,
    stepList_nodup method slice s hpinv.ids_nodup,
    stepList_nonneg method slice s hpinv.ids_nonneg, ?_, ?_, ?_⟩
  · intro p hp
    exact hpinv.fresh p ((stepList_mem method slice s p).mp hp)
  · show stepCpus method slice s = _
    rw [show stepCpus method slice s
        = update_cpus_state (stepList method slice s) (admitIn s).cpus
        from rfl]
    rw [update_cpus_state_eq _ _
      (stepList_nonneg method slice s hpinv.ids_nonneg)]
    rw [hpinv.cpus_len]
  · show accounted (stepList method slice s)
        (min (admitIn s).cpus.length (stepList method slice s).length) = _
    rw [hpinv.cpus_len]

/-- The non-preemption step: under sjf or prio_fcfs_no_preemption, a slot
id that is still live is scheduled again by the next assign. -/
theorem keep_slot (method slice N : Nat) (s : SimState)
    (hm16 : method = 1 ∨ method = 6)
    (hpinv : PInv N (admitIn s)) (hshape : SlotShape N s) (i : Int)
    (hocc : i ∈ s.cpus) (hne : i ≠ -1)
    (hlive : i ∈ s.procs.map (fun p => p.id)) :
    i ∈ stepCpus method slice s := by
  rcases hshape with ⟨hprocs0, _⟩ |
    ⟨M, hMnodup, hMnonneg, hMfresh, hcpus, hprocs⟩
  · rw [hprocs0] at hlive
    simp at hlive
  obtain ⟨new, hadm, hnew⟩ := admit_procs_suffix s
  have hcs : (admitIn s).cpus = s.cpus := admit_cpus s
  have hacc : accounted M (min N M.length)
      = (M.take (min N M.length)).filterMap procStep
        ++ M.drop (min N M.length) := rfl
  have hMsplit : M.map (fun p => p.id)
      = (M.take (min N M.length)).map (fun p => p.id)
        ++ (M.drop (min N M.length)).map (fun p => p.id) := by
    rw [← List.map_append, List.take_append_drop]
  have hMdisj : ∀ c, c ∈ (M.take (min N M.length)).map (fun p => p.id) →
      c ∈ (M.drop (min N M.length)).map (fun p => p.id) → False := by
    intro c h1 h2
    rw [hMsplit] at hMnodup
    exact List.disjoint_of_nodup_append hMnodup h1 h2
  have hsurv_sub : (((M.take (min N M.length)).filterMap procStep).map
      (fun p => p.id)).Sublist
      ((M.take (min N M.length)).map (fun p => p.id)) :=
    filterMap_step_ids_sublist procStep (fun p q h => procStep_id p q h) _
  have hSOR_nonneg : ∀ c ∈ stableSort intLt
      ((M.map (fun p => p.id)).take N), 0 ≤ c := by
    intro c hcm
    have h2 := List.mem_of_mem_take ((stableSort_mem intLt _ c).mp hcm)
    rcases List.mem_map.mp h2 with ⟨p, hp, hpc⟩
    rw [← hpc]
    exact hMnonneg p hp
  have hnotin : (-1 : Int) ∉ stableSort intLt
      ((M.map (fun p => p.id)).take N) := by
    intro h
    have h2 := hSOR_nonneg _ h
    omega
  have hiSOR : i ∈ stableSort intLt ((M.map (fun p => p.id)).take N) := by
    rw [hcpus] at hocc
    rcases List.mem_append.mp hocc with h2 | h2
    · exact h2
    · exact absurd (List.eq_of_mem_replicate h2) hne
  have hitake : i ∈ (M.take (min N M.length)).map (fun p => p.id) := by
    have h2 := (stableSort_mem intLt _ i).mp hiSOR
    rw [take_min_eq M N] at h2
    exact h2
  have hisurv : i ∈ ((M.take (min N M.length)).filterMap procStep).map
      (fun p => p.id) := by
    rw [hprocs, hacc, List.map_append] at hlive
    rcases List.mem_append.mp hlive with h2 | h2
    · exact h2
    · exact (hMdisj i hitake h2).elim
  have hprocs_ids : (admitIn s).procs.map (fun p => p.id)
      = (((M.take (min N M.length)).filterMap procStep).map (fun p => p.id)
          ++ (M.drop (min N M.length)).map (fun p => p.id))
        ++ new.map (fun p => p.id) := by
    rw [hadm, List.map_append, hprocs, hacc, List.map_append]
  have hmem_iff : ∀ c ∈ (M.take (min N M.length)).map (fun p => p.id),
      (c ∈ (admitIn s).procs.map (fun p => p.id))
        ↔ (c ∈ ((M.take (min N M.length)).filterMap procStep).map
            (fun p => p.id)) := by
    intro c hc
    rcases List.mem_map.mp hc with ⟨p, hp, hpc⟩
    constructor
    · intro h2
      rw [hprocs_ids] at h2
      rcases List.mem_append.mp h2 with h3 | h3
      · rcases List.mem_append.mp h3 with h4 | h4
        · exact h4
        · exact (hMdisj c hc h4).elim
      · exfalso
        rcases List.mem_map.mp h3 with ⟨q, hq, hqc⟩
        have h5 := hnew q hq
        rw [hqc] at h5
        have h6 := hMfresh p (List.mem_of_mem_take hp)
        rw [hpc] at h6
        exact h6 h5
    · intro h2
      rw [hprocs_ids]
      exact List.mem_append.mpr (Or.inl (List.mem_append.mpr (Or.inl h2)))
  have hfilter_eq : ((M.take (min N M.length)).map (fun p => p.id)).filter
        (fun c => c ∈ (admitIn s).procs.map (fun p => p.id))
      = ((M.take (min N M.length)).filterMap procStep).map
          (fun p => p.id) := by
    have hcong : ∀ c ∈ (M.take (min N M.length)).map (fun p => p.id),
        decide (c ∈ (admitIn s).procs.map (fun p => p.id))
          = decide (c ∈ ((M.take (min N M.length)).filterMap procStep).map
              (fun p => p.id)) := by
      intro c hc
      rw [decide_eq_decide]
      exact hmem_iff c hc
    rw [List.filter_congr hcong]
    refine filter_mem_sublist_eq _ _ hsurv_sub ?_
    exact List.Nodup.sublist ((List.take_sublist _ _).map _) hMnodup
  have hjle : ((M.take (min N M.length)).filterMap procStep).length ≤ N := by
    have h2 := hsurv_sub.length_le
    rw [List.length_map, List.length_map] at h2
    have h3 : (M.take (min N M.length)).length = min (min N M.length) M.length :=
      List.length_take _ _
    omega
  have hjleP : ((M.take (min N M.length)).filterMap procStep).length
      ≤ (admitIn s).procs.length := by
    have h4 : (admitIn s).procs.length
        = (((M.take (min N M.length)).filterMap procStep).length
            + (M.drop (min N M.length)).length) + new.length := by
      rw [hadm, hprocs, hacc]
      rw [List.length_append, List.length_append]
    omega
  have hperm : (stableSort intLt ((M.map (fun p => p.id)).take N)).Perm
      ((M.take (min N M.length)).map (fun p => p.id)) := by
    have h2 := stableSort_perm intLt ((M.map (fun p => p.id)).take N)
    nth_rewrite 2 [take_min_eq M N] at h2
    exact h2
  have hskip : skipCountGo (admitIn s).procs 0 (admitIn s).cpus
      = ((M.take (min N M.length)).filterMap procStep).length := by
    rw [hcs, hcpus,
      skipCountGo_append_idle (admitIn s).procs _ 0 (N - M.length) hnotin,
      skipCountGo_formula (admitIn s).procs hpinv.ids_nodup _ 0 hnotin
        (Nat.zero_le _)]
    have hlen2 := (hperm.filter
      (fun c => decide (c ∈ (admitIn s).procs.map (fun p => p.id)))).length_eq
    rw [hlen2, hfilter_eq, List.length_map]
    omega
  have htake_surv : (admitIn s).procs.take
        (((M.take (min N M.length)).filterMap procStep).length)
      = (M.take (min N M.length)).filterMap procStep := by
    rw [hadm, hprocs, hacc, List.append_assoc]
    exact List.take_left _ _
  have hL : ∃ rest2, stepList method slice s
      = (M.take (min N M.length)).filterMap procStep ++ rest2 := by
    rcases hm16 with h1 | h6
    · refine ⟨stableSort compare_exec_time ((admitIn s).procs.drop
        (skipCountGo (admitIn s).procs 0 (admitIn s).cpus)), ?_⟩
      rw [h1]
      show sjfOrder (admitIn s).procs (admitIn s).cpus = _
      rw [show sjfOrder (admitIn s).procs (admitIn s).cpus
          = (admitIn s).procs.take (skipCountGo (admitIn s).procs 0 (admitIn s).cpus)
            ++ stableSort compare_exec_time ((admitIn s).procs.drop
              (skipCountGo (admitIn s).procs 0 (admitIn s).cpus)) from rfl]
      rw [hskip, htake_surv]
    · refine ⟨stableSort compare_priority ((admitIn s).procs.drop
        (skipCountGo (admitIn s).procs 0 (admitIn s).cpus)), ?_⟩
      rw [h6]
      show prioNoPreOrder (admitIn s).procs (admitIn s).cpus = _
      rw [show prioNoPreOrder (admitIn s).procs (admitIn s).cpus
          = (admitIn s).procs.take (skipCountGo (admitIn s).procs 0 (admitIn s).cpus)
            ++ stableSort compare_priority ((admitIn s).procs.drop
              (skipCountGo (admitIn s).procs 0 (admitIn s).cpus)) from rfl]
      rw [hskip, htake_surv]
  obtain ⟨rest2, hLeq⟩ := hL
  have hnonnegL := stepList_nonneg method slice s hpinv.ids_nonneg
  show i ∈ update_cpus_state (stepList method slice s) (admitIn s).cpus
  rw [update_cpus_state_eq _ _ hnonnegL]
  refine List.mem_append.mpr (Or.inl ?_)
  refine (stableSort_mem intLt _ i).mpr ?_
  rw [hpinv.cpus_len, hLeq, List.map_append, List.take_append_eq_append_take]
  refine List.mem_append.mpr (Or.inl ?_)
  rw [List.take_of_length_le ?_]
  · exact hisurv
  · rw [List.length_map]
    omega

/-- An id no longer present in the list and not owed by the remaining
input never appears again as an occupied slot in any emitted record. -/
theorem run_avoid (method slice N : Nat) (hN : 1 ≤ N) (hm : method ≤ 6) :
    ∀ (n : Nat) (s sf : SimState) (recs : List Record),
      GInv N s → runSim method slice n s = some (sf, recs) →
      ∀ i : Int, i ∉ s.procs.map (fun p => p.id) → i ∉ inputIds s.input →
      ∀ r ∈ recs, i ∈ r.slots → i = -1 := by
  intro n
  induction n with
  | zero =>
    intro s sf recs hinv hrun i hip hii r hr hir
    unfold runSim at hrun
    by_cases hd : simDone s = true
    · rw [if_pos hd] at hrun
      simp at hrun
      rw [hrun.2] at hr
      simp at hr
    · rw [if_neg hd] at hrun
      simp at hrun
  | succ n2 ih =>
    intro s sf recs hinv hrun i hip hii r hr hir
    unfold runSim at hrun
    by_cases hd : simDone s = true
    · rw [if_pos hd] at hrun
      simp at hrun
      rw [hrun.2] at hr
      simp at hr
    · rw [if_neg hd] at hrun
      have hpinv := admit_pinv N s hinv.toPInv
      cases hq : stepSim method slice s with
      | none =>
        rw [hq] at hrun
        simp at hrun
      | some pr =>
        obtain ⟨s2, r0⟩ := pr
        rw [hq] at hrun
        have hrun2 : (runSim method slice n2 s2).map
            (fun q => (q.1, r0 :: q.2)) = some (sf, recs) := hrun
        have hstep := stepSim_eq method slice s hm hpinv.ids_nodup
          hpinv.ids_nonneg
        rw [hq] at hstep
        have hpair := Option.some.inj hstep
        have hs2procs : s2.procs = accounted (stepList method slice s)
            (min (admitIn s).cpus.length (stepList method slice s).length) :=
          congrArg (fun x => x.1.procs) hpair
        have hs2cpus : s2.cpus = stepCpus method slice s :=
          congrArg (fun x => x.1.cpus) hpair
        have hs2input : s2.input = (admitIn s).input :=
          congrArg (fun x => x.1.input) hpair
        have hr0slots : r0.slots = stepCpus method slice s :=
          congrArg (fun x => x.2.slots) hpair
        have hinv2 : GInv N s2 := by
          rw [show s2 = _ from congrArg Prod.fst hpair]
          exact step_GInv method slice N s hN hpinv
        obtain ⟨new, hadm, hnew⟩ := admit_procs_suffix s
        have havoid : ∀ j : Int,
            j ∈ (admitIn s).procs.map (fun p => p.id) → j ≠ i := by
          intro j hj hji
          rw [hji] at hj
          rw [hadm, List.map_append] at hj
          rcases List.mem_append.mp hj with h5 | h5
          · exact hip h5
          · rcases List.mem_map.mp h5 with ⟨q2, hq3, hq4⟩
            have h6 := hnew q2 hq3
            rw [hq4] at h6
            exact hii h6
        cases hq2 : runSim method slice n2 s2 with
        | none =>
          rw [hq2] at hrun2
          simp at hrun2
        | some q =>
          rw [hq2] at hrun2
          simp at hrun2
          rw [← hrun2.2] at hr
          rcases List.mem_cons.mp hr with hcase | hcase
          · rw [hcase, hr0slots] at hir
            by_contra hne
            have h3 := update_mem (stepList method slice s) (admitIn s).cpus
              (stepList_nonneg method slice s hpinv.ids_nonneg) i hir hne
            have h4 : i ∈ (admitIn s).procs.map (fun p => p.id) :=
              (((reorderOf_perm method slice (admitIn s).procs
                (admitIn s).cpus).map (fun p => p.id)).mem_iff).mp h3
            exact havoid i h4 rfl
          · refine ih s2 q.1 q.2 hinv2 ?_ i ?_ ?_ r hcase hir
            · rw [hq2]
            · intro h3
              rw [hs2procs] at h3
              have h4 := (accounted_ids_sublist _ _).subset h3
              have h5 : i ∈ (admitIn s).procs.map (fun p => p.id) :=
                (((reorderOf_perm method slice (admitIn s).procs
                  (admitIn s).cpus).map (fun p => p.id)).mem_iff).mp h4
              exact havoid i h5 rfl
            · intro h3
              rw [hs2input] at h3
              exact hii (admit_input_sub s i h3)

theorem runSim_head_slots (method slice N : Nat) (hm : method ≤ 6)
    (n : Nat) (s sf : SimState) (r : Record) (rest : List Record)
    (hinv : GInv N s)
    (hrun : runSim method slice n s = some (sf, r :: rest)) :
    r.slots = stepCpus method slice s := by
  cases n with
  | zero =>
    unfold runSim at hrun
    by_cases hd : simDone s = true
    · rw [if_pos hd] at hrun
      simp at hrun
    · rw [if_neg hd] at hrun
      simp at hrun
  | succ n2 =>
    unfold runSim at hrun
    by_cases hd : simDone s = true
    · rw [if_pos hd] at hrun
      simp at hrun
    · rw [if_neg hd] at hrun
      have hpinv := admit_pinv N s hinv.toPInv
      cases hq : stepSim method slice s with
      | none =>
        rw [hq] at hrun
        simp at hrun
      | some pr =>
        obtain ⟨s2, r0⟩ := pr
        rw [hq] at hrun
        have hrun2 : (runSim method slice n2 s2).map
            (fun q => (q.1, r0 :: q.2)) = some (sf, r :: rest) := hrun
        cases hq2 : runSim method slice n2 s2 with
        | none =>
          rw [hq2] at hrun2
          simp at hrun2
        | some q =>
          rw [hq2] at hrun2
          simp at hrun2
          have hstep := stepSim_eq method slice s hm hpinv.ids_nodup
            hpinv.ids_nonneg
          rw [hq] at hstep
          have hpair := Option.some.inj hstep
          have hr0slots : r0.slots = stepCpus method slice s :=
            congrArg (fun x => x.2.slots) hpair
          rw [← hrun2.2.1]
          exact hr0slots

/-- Contiguity of slot occupancy under the non-preemptive methods: over a
run from an invariant state, the set of record indices at which an id
occupies a slot is an interval. -/
theorem run_contig (method slice N : Nat) (hN : 1 ≤ N)
    (hm16 : method = 1 ∨ method = 6) :
    ∀ (n : Nat) (s sf : SimState) (recs : List Record),
      GInv N s → SlotShape N s →
      runSim method slice n s = some (sf, recs) →
      ∀ i : Int, i ≠ -1 → ∀ k1 k2 k3 : Nat, k1 ≤ k2 → k2 ≤ k3 →
        k3 < recs.length →
        i ∈ (recs.getD k1 ⟨0, []⟩).slots →
        i ∈ (recs.getD k3 ⟨0, []⟩).slots →
        i ∈ (recs.getD k2 ⟨0, []⟩).slots := by
  have hm : method ≤ 6 := by
    rcases hm16 with h | h <;> omega
  intro n
  induction n with
  | zero =>
    intro s sf recs hinv hshape hrun i hne k1 k2 k3 h12 h23 hk3 hi1 hi3
    unfold runSim at hrun
    by_cases hd : simDone s = true
    · rw [if_pos hd] at hrun
      simp at hrun
      rw [hrun.2] at hk3
      simp at hk3
    · rw [if_neg hd] at hrun
      simp at hrun
  | succ n2 ih =>
    intro s sf recs hinv hshape hrun i hne k1 k2 k3 h12 h23 hk3 hi1 hi3
    unfold runSim at hrun
    by_cases hd : simDone s = true
    · rw [if_pos hd] at hrun
      simp at hrun
      rw [hrun.2] at hk3
      simp at hk3
    · rw [if_neg hd] at hrun
      have hpinv := admit_pinv N s hinv.toPInv
      cases hq : stepSim method slice s with
      | none =>
        rw [hq] at hrun
        simp at hrun
      | some pr =>
        obtain ⟨s2, r0⟩ := pr
        rw [hq] at hrun
        have hrun2 : (runSim method slice n2 s2).map
            (fun q => (q.1, r0 :: q.2)) = some (sf, recs) := hrun
        have hstep := stepSim_eq method slice s hm hpinv.ids_nodup
          hpinv.ids_nonneg
        rw [hq] at hstep
        have hpair := Option.some.inj hstep
        have hs2cpus : s2.cpus = stepCpus method slice s :=
          congrArg (fun x => x.1.cpus) hpair
        have hs2input : s2.input = (admitIn s).input :=
          congrArg (fun x => x.1.input) hpair
        have hr0slots : r0.slots = stepCpus method slice s :=
          congrArg (fun x => x.2.slots) hpair
        have hinv2 : GInv N s2 := by
          rw [show s2 = _ from congrArg Prod.fst hpair]
          exact step_GInv method slice N s hN hpinv
        have hshape2 : SlotShape N s2 := by
          rw [show s2 = _ from congrArg Prod.fst hpair]
          exact step_shape method slice N s hpinv
        cases hq2 : runSim method slice n2 s2 with
        | none =>
          rw [hq2] at hrun2
          simp at hrun2
        | some q =>
          rw [hq2] at hrun2
          simp at hrun2
          have hq2x : runSim method slice n2 s2 = some (q.1, q.2) := by
            rw [hq2]
          rw [← hrun2.2] at hk3 hi1 hi3 ⊢
          cases k1 with
          | succ k1' =>
            cases k2 with
            | zero => omega
            | succ k2' =>
              cases k3 with
              | zero => omega
              | succ k3' =>
                rw [List.getD_cons_succ] at hi1 hi3 ⊢
                refine ih s2 q.1 q.2 hinv2 hshape2 hq2x i hne k1' k2' k3'
                  (by omega) (by omega) ?_ hi1 hi3
                rw [List.length_cons] at hk3
                omega
          | zero =>
            cases k2 with
            | zero =>
              rw [List.getD_cons_zero] at hi1 ⊢
              exact hi1
            | succ k2' =>
              cases k3 with
              | zero => omega
              | succ k3' =>
                rw [List.getD_cons_zero] at hi1
                rw [List.getD_cons_succ] at hi3 ⊢
                have hk3x : k3' < q.2.length := by
                  rw [List.length_cons] at hk3
                  omega
                by_cases hlive : i ∈ s2.procs.map (fun p => p.id)
                · have hocc2 : i ∈ s2.cpus := by
                    rw [hs2cpus, ← hr0slots]
                    exact hi1
                  have hkeep := keep_slot method slice N s2 hm16
                    (admit_pinv N s2 hinv2.toPInv) hshape2 i hocc2 hne hlive
                  have hi20 : i ∈ (q.2.getD 0 ⟨0, []⟩).slots := by
                    cases hq2struct : q.2 with
                    | nil =>
                      rw [hq2struct] at hk3x
                      simp at hk3x
                    | cons r1 rest1 =>
                      have hr1slots : r1.slots = stepCpus method slice s2 := by
                        refine runSim_head_slots method slice N hm n2 s2 q.1
                          r1 rest1 hinv2 ?_
                        rw [← hq2struct]
                        exact hq2x
                      rw [List.getD_cons_zero, hr1slots]
                      exact hkeep
                  exact ih s2 q.1 q.2 hinv2 hshape2 hq2x i hne 0 k2' k3'
                    (Nat.zero_le _) (by omega) hk3x hi20 hi3
                · exfalso
                  have hiadm : i ∈ (admitIn s).procs.map (fun p => p.id) := by
                    have h3 := update_mem (stepList method slice s)
                      (admitIn s).cpus
                      (stepList_nonneg method slice s hpinv.ids_nonneg) i
                      (by show i ∈ stepCpus method slice s
                          rw [← hr0slots]
                          exact hi1) hne
                    exact (((reorderOf_perm method slice (admitIn s).procs
                      (admitIn s).cpus).map (fun p => p.id)).mem_iff).mp h3
                  rcases List.mem_map.mp hiadm with ⟨p, hp, hpi⟩
                  have hfresh := hpinv.fresh p hp
                  rw [hpi] at hfresh
                  have hfresh2 : i ∉ inputIds s2.input := by
                    rw [hs2input]
                    exact hfresh
                  have hrmem : q.2.getD k3' ⟨0, []⟩ ∈ q.2 := by
                    rw [List.getD_eq_getElem q.2 ⟨0, []⟩ hk3x]
                    exact List.getElem_mem hk3x
                  exact hne (run_avoid method slice N hN hm n2 s2 q.1 q.2
                    hinv2 hq2x i hlive hfresh2 _ hrmem hi3)

/-- C3: under SJF (method 1) and non-preemptive priority FCFS (method 6),
over a complete well-formed run the records in which a given process id
occupies a slot form one contiguous block, and the id occupies a slot in
exactly execution-time many records: once a process occupies a slot, it
occupies a slot at every subsequent tick until its remaining time reaches
zero, never losing it to a newly arrived or reordered process. -/
theorem C3_nonpreemptive_keep (method slice N : Nat) (input : List Group)
    (hm16 : method = 1 ∨ method = 6) (hN : 1 ≤ N) (hwf : WFInput input) :
    ∃ sf recs,
      runSim method slice (measureSim (initState N input))
        (initState N input) = some (sf, recs)
      ∧ simDone sf = true
      ∧ (∀ i : Int, i ≠ -1 → ∀ k1 k2 k3 : Nat, k1 ≤ k2 → k2 ≤ k3 →
          k3 < recs.length →
          i ∈ (recs.getD k1 ⟨0, []⟩).slots →
          i ∈ (recs.getD k3 ⟨0, []⟩).slots →
          i ∈ (recs.getD k2 ⟨0, []⟩).slots)
      ∧ (∀ g ∈ input, ∀ a ∈ g.arrivals,
          recs.countP (fun r => a.id ∈ r.slots) = a.exec_time) := by
  have hm : method ≤ 6 := by
    rcases hm16 with h | h <;> omega
  rcases runSpec method slice N hN hm (measureSim (initState N input))
      (initState N input) (Nat.le_refl _) (initState_ginv N input hwf) with
    ⟨sf, recs, hrun, hdone, hinvf, hprocsf, hcnt, hshape, hlast⟩
  refine ⟨sf, recs, hrun, hdone, ?_, ?_⟩
  · intro i hne k1 k2 k3 h12 h23 hk3 hi1 hi3
    exact run_contig method slice N hN hm16 (measureSim (initState N input))
      (initState N input) sf recs (initState_ginv N input hwf)
      (Or.inl ⟨rfl, rfl⟩) hrun i hne k1 k2 k3 h12 h23 hk3 hi1 hi3
  · intro g hg a ha
    have hai := hwf.2 g hg a ha
    have hsum := hcnt a.id hai.1
    rw [expectedOf_init, execOf_eq input hwf.1 g hg a ha] at hsum
    rw [← sum_counts_eq_countP a.id recs
      (fun r hr => (hshape r hr).2.1 a.id hai.1)]
    exact hsum.symm

theorem C3_nonpreemptive_keep_witness :
    ((1 : Nat) = 1 ∨ (1 : Nat) = 6) ∧ (1 : Nat) ≤ 1
    ∧ WFInput [⟨0, [⟨2, 0, 2⟩]⟩]
    ∧ ∃ sf recs,
      runSim 1 1 (measureSim (initState 1 [⟨0, [⟨2, 0, 2⟩]⟩]))
        (initState 1 [⟨0, [⟨2, 0, 2⟩]⟩]) = some (sf, recs)
      ∧ simDone sf = true
      ∧ (∀ i : Int, i ≠ -1 → ∀ k1 k2 k3 : Nat, k1 ≤ k2 → k2 ≤ k3 →
          k3 < recs.length →
          i ∈ (recs.getD k1 ⟨0, []⟩).slots →
          i ∈ (recs.getD k3 ⟨0, []⟩).slots →
          i ∈ (recs.getD k2 ⟨0, []⟩).slots)
      ∧ (∀ g ∈ [(⟨0, [⟨2, 0, 2⟩]⟩ : Group)], ∀ a ∈ g.arrivals,
          recs.countP (fun r => a.id ∈ r.slots) = a.exec_time) := by
  have hwf : WFInput [⟨0, [⟨2, 0, 2⟩]⟩] := by
    refine ⟨by decide, ?_⟩
    intro g hg a ha
    simp at hg
    rw [hg] at ha
    simp at ha
    rw [ha]
    refine ⟨by decide, by decide, by decide⟩
  exact ⟨Or.inl rfl, by decide, hwf,
    C3_nonpreemptive_keep 1 1 1 [⟨0, [⟨2, 0, 2⟩]⟩] (Or.inl rfl)
      (by decide) hwf⟩

end ProcSched
